import Mathlib

/-!
# Verification of the banded OKVS encoder/decoder

Shallow embedding of the oblivious key-value store implemented in
`newokvs/src/newokvs.rs`, together with the bit-dot kernel from
`newokvs/src/utils/dot_u64_generic.rs` and the word-XOR kernel from
`newokvs/src/utils/xor_u64s.rs`.

Modelling conventions:

* 64-bit machine words (`Bucket = u64`) are `Nat`s carried with the side
  condition `< 2 ^ 64` where it matters; all masking is written with the
  same bitwise operations the source uses.
* The value type is the 128-bit `Block` (a `u128` wrapper): XOR is `Nat.xor`,
  `From<u64>` is the identity embedding, `Mul` is `Nat` multiplication
  (only ever applied with a `0`/`1` operand here), `Default` is `0`.
* Keys enter `row_k` only through the opaque external hash `hash_row_k`
  (BLAKE3 XOF resp. fixed-key AES, both external crates/primitives).  A key
  is therefore modelled by the pair `(start_index, offsets)` that
  `hash_row_k` returns for it: equal keys yield equal pairs because the
  hash is a deterministic function of the key.  Universal statements over
  hash outputs subsume the corresponding statements over keys.
* `epsilon` is an `f64`; every `f64` value is a rational number, and the
  length computation `(n as f64 * (1.0 + epsilon)).ceil() as usize` is
  modelled exactly over `ℚ`.
* In-place loops over `Vec`s become structural recursions: the outer
  elimination loop `for i in 0..n` never revisits rows `< i`, so the
  rows are consumed front-to-back; its iteration count `n` is the fuel.
* Rust panics (remainder by zero in `row_k` via `decode`, the singular
  matrix panic in `encode`) are modelled by `Option`/`Except` results.
-/

namespace OkvsPSI

/-- `count` in `row_k`: the number of 64-bit words backing a band of the
given width, `(width - 2 + SNAP_LEN) / SNAP_LEN + 1` with `SNAP_LEN = 64`. -/
def rowCount (width : Nat) : Nat := (width - 2 + 64) / 64 + 1

/-- Bitwise complement on a `u64`, the Rust `!x`. -/
def not64 (x : Nat) : Nat := x ^^^ (2 ^ 64 - 1)

/-- `u64::trailing_zeros`, computed by repeated halving with 64 bits of
fuel; returns 64 on input 0, like the Rust intrinsic. -/
def ctzAux : Nat → Nat → Nat
  | 0, _ => 0
  | f + 1, x => if x % 2 = 1 then 0 else ctzAux f (x / 2) + 1

/-- Trailing-zero count of a 64-bit word. -/
def ctz64 (x : Nat) : Nat := ctzAux 64 x

/-- The masking steps of `row_k` (newokvs.rs lines 78-86), applied to the
hash words `o` for the already-reduced start index `s`: clear bits below
`s % 64` in word 0; if `last < count` clear bits from `(s + width) % 64`
up in word `last`; if `last = count - 2` zero word `last + 1`. -/
def maskOffsets (width s : Nat) (o : List Nat) : List Nat :=
  let count := rowCount width
  let o1 := o.set 0 ((o.getD 0 0) &&& not64 ((1 <<< (s % 64)) - 1))
  let last := (s % 64 + width) / 64
  let o2 :=
    if last < count then o1.set last ((o1.getD last 0) &&& ((1 <<< ((s + width) % 64)) - 1))
    else o1
  if last = count - 2 then o2.set (last + 1) 0 else o2

/-- The start-index reduction composed with the band masking: the whole of
`row_k` after the hash call. -/
def row_k (m width : Nat) (key : Nat × List Nat) : Nat × List Nat :=
  (key.1 % (m - width), maskOffsets width (key.1 % (m - width)) key.2)

/-- The short-loop branch of `dot_u64_generic` (taken when `b.len() < 64`):
`for i in 0..b.len() { out ^= b[i].clone() * Block::from((a >> i) & 1); }`. -/
def dotShort (a : Nat) (b : List Nat) : Nat :=
  (List.range b.length).foldl (fun out i => out ^^^ b.getD i 0 * ((a >>> i) &&& 1)) 0

/-- The unrolled branch of `dot_u64_generic` (taken when `b.len() >= 64`):
the 64 straight-line statements `out ^= b[i].clone() * Block::from((a >> i) & 1)`
for `i = 0, …, 63`, written as one left-nested accumulation. -/
def dotUnrolled (a : Nat) (b : List Nat) : Nat :=
  ((((((((((((((((((((((((((((((((((((((((((((((((((((((((((((((((0
    ^^^ b.getD 0 0 * ((a >>> 0) &&& 1))
    ^^^ b.getD 1 0 * ((a >>> 1) &&& 1))
    ^^^ b.getD 2 0 * ((a >>> 2) &&& 1))
    ^^^ b.getD 3 0 * ((a >>> 3) &&& 1))
    ^^^ b.getD 4 0 * ((a >>> 4) &&& 1))
    ^^^ b.getD 5 0 * ((a >>> 5) &&& 1))
    ^^^ b.getD 6 0 * ((a >>> 6) &&& 1))
    ^^^ b.getD 7 0 * ((a >>> 7) &&& 1))
    ^^^ b.getD 8 0 * ((a >>> 8) &&& 1))
    ^^^ b.getD 9 0 * ((a >>> 9) &&& 1))
    ^^^ b.getD 10 0 * ((a >>> 10) &&& 1))
    ^^^ b.getD 11 0 * ((a >>> 11) &&& 1))
    ^^^ b.getD 12 0 * ((a >>> 12) &&& 1))
    ^^^ b.getD 13 0 * ((a >>> 13) &&& 1))
    ^^^ b.getD 14 0 * ((a >>> 14) &&& 1))
    ^^^ b.getD 15 0 * ((a >>> 15) &&& 1))
    ^^^ b.getD 16 0 * ((a >>> 16) &&& 1))
    ^^^ b.getD 17 0 * ((a >>> 17) &&& 1))
    ^^^ b.getD 18 0 * ((a >>> 18) &&& 1))
    ^^^ b.getD 19 0 * ((a >>> 19) &&& 1))
    ^^^ b.getD 20 0 * ((a >>> 20) &&& 1))
    ^^^ b.getD 21 0 * ((a >>> 21) &&& 1))
    ^^^ b.getD 22 0 * ((a >>> 22) &&& 1))
    ^^^ b.getD 23 0 * ((a >>> 23) &&& 1))
    ^^^ b.getD 24 0 * ((a >>> 24) &&& 1))
    ^^^ b.getD 25 0 * ((a >>> 25) &&& 1))
    ^^^ b.getD 26 0 * ((a >>> 26) &&& 1))
    ^^^ b.getD 27 0 * ((a >>> 27) &&& 1))
    ^^^ b.getD 28 0 * ((a >>> 28) &&& 1))
    ^^^ b.getD 29 0 * ((a >>> 29) &&& 1))
    ^^^ b.getD 30 0 * ((a >>> 30) &&& 1))
    ^^^ b.getD 31 0 * ((a >>> 31) &&& 1))
    ^^^ b.getD 32 0 * ((a >>> 32) &&& 1))
    ^^^ b.getD 33 0 * ((a >>> 33) &&& 1))
    ^^^ b.getD 34 0 * ((a >>> 34) &&& 1))
    ^^^ b.getD 35 0 * ((a >>> 35) &&& 1))
    ^^^ b.getD 36 0 * ((a >>> 36) &&& 1))
    ^^^ b.getD 37 0 * ((a >>> 37) &&& 1))
    ^^^ b.getD 38 0 * ((a >>> 38) &&& 1))
    ^^^ b.getD 39 0 * ((a >>> 39) &&& 1))
    ^^^ b.getD 40 0 * ((a >>> 40) &&& 1))
    ^^^ b.getD 41 0 * ((a >>> 41) &&& 1))
    ^^^ b.getD 42 0 * ((a >>> 42) &&& 1))
    ^^^ b.getD 43 0 * ((a >>> 43) &&& 1))
    ^^^ b.getD 44 0 * ((a >>> 44) &&& 1))
    ^^^ b.getD 45 0 * ((a >>> 45) &&& 1))
    ^^^ b.getD 46 0 * ((a >>> 46) &&& 1))
    ^^^ b.getD 47 0 * ((a >>> 47) &&& 1))
    ^^^ b.getD 48 0 * ((a >>> 48) &&& 1))
    ^^^ b.getD 49 0 * ((a >>> 49) &&& 1))
    ^^^ b.getD 50 0 * ((a >>> 50) &&& 1))
    ^^^ b.getD 51 0 * ((a >>> 51) &&& 1))
    ^^^ b.getD 52 0 * ((a >>> 52) &&& 1))
    ^^^ b.getD 53 0 * ((a >>> 53) &&& 1))
    ^^^ b.getD 54 0 * ((a >>> 54) &&& 1))
    ^^^ b.getD 55 0 * ((a >>> 55) &&& 1))
    ^^^ b.getD 56 0 * ((a >>> 56) &&& 1))
    ^^^ b.getD 57 0 * ((a >>> 57) &&& 1))
    ^^^ b.getD 58 0 * ((a >>> 58) &&& 1))
    ^^^ b.getD 59 0 * ((a >>> 59) &&& 1))
    ^^^ b.getD 60 0 * ((a >>> 60) &&& 1))
    ^^^ b.getD 61 0 * ((a >>> 61) &&& 1))
    ^^^ b.getD 62 0 * ((a >>> 62) &&& 1))
    ^^^ b.getD 63 0 * ((a >>> 63) &&& 1))

/-- `dot_u64_generic` from `utils/dot_u64_generic.rs`, at `Block` values. -/
def dot_u64_generic (a : Nat) (b : List Nat) : Nat :=
  if 64 ≤ b.length then dotUnrolled a b else dotShort a b

/-- `xor_u64s_inplace(dst, src, len)` with `len = src.length`: XORs `src`
word-wise into the first `src.length` entries of `dst` (the source calls it
with `len = offsets[k].len() - id_offset`, exactly the length of the
source slice). -/
def xorWords : List Nat → List Nat → List Nat
  | d, [] => d
  | [], _ => []
  | d :: ds, s :: ss => (d ^^^ s) :: xorWords ds ss

/-- The pivot search of the elimination loop (newokvs.rs lines 136-145):
scan the packed words, adding 64 per zero word, and add the trailing-zero
count of the first non-zero word; `none` when every word is zero
(`found == false`, the singular case). -/
def findPivot : List Nat → Option Nat
  | [] => none
  | w :: ws => if w ≠ 0 then some (ctz64 w) else (findPivot ws).map (· + 64)

/-- The pivot search as run by back-substitution (newokvs.rs lines 169-176),
which has no `found` flag: on an all-zero row `j` ends at `64 * len`. -/
def findPivotD (o : List Nat) : Nat :=
  match findPivot o with
  | some j => j
  | none => 64 * o.length

/-- One row of the band matrix as held by `encode`: its band start index,
its packed offset words, and its value. -/
structure RowT where
  start : Nat
  offs : List Nat
  val : Nat

/-- The inner elimination loop (newokvs.rs lines 149-164) for pivot row
`(iid*64 .. , oi, vi)` with pivot offset `j`: walk the later rows, stop at
the first row whose start index exceeds the pivot bit, and XOR the pivot
row's words (shifted by `id_offset`) and value into every row that has the
pivot bit set. -/
def elimLoop (iid j : Nat) (oi : List Nat) (vi : Nat) : List RowT → List RowT
  | [] => []
  | r :: rest =>
    if iid * 64 + j < r.start then r :: rest
    else
      let idoff := r.start / 64 - iid
      if (r.offs.getD (j / 64 - idoff) 0 >>> (j % 64)) &&& 1 ≠ 0 then
        ⟨r.start, xorWords r.offs (oi.drop idoff), r.val ^^^ vi⟩ :: elimLoop iid j oi vi rest
      else
        r :: elimLoop iid j oi vi rest

/-- The triangularization loop `for i in 0..n` (newokvs.rs lines 133-165).
Row `i` is read, its pivot is found (`none` = "Matrix is singular" panic),
and it is eliminated from the following rows; rows before `i` are never
touched again, so the list is consumed front to back with the iteration
count `n` as fuel. -/
def triangFuel : Nat → List RowT → Option (List RowT)
  | 0, _ => some []
  | _ + 1, [] => some []
  | f + 1, r :: rest =>
    match findPivot r.offs with
    | none => none
    | some j => (triangFuel f (elimLoop (r.start / 64) j r.offs r.val rest)).map (r :: ·)

/-- Triangularization of the whole (sorted) row list. -/
def triang (rows : List RowT) : Option (List RowT) :=
  triangFuel rows.length rows

/-- There is a moment during triangularization at which the row being
visited has all of its packed offset words equal to zero. -/
def hitsZeroFuel : Nat → List RowT → Prop
  | 0, _ => False
  | _ + 1, [] => False
  | f + 1, r :: rest =>
    (∀ w ∈ r.offs, w = 0) ∨
      ∃ j, findPivot r.offs = some j ∧
        hitsZeroFuel f (elimLoop (r.start / 64) j r.offs r.val rest)

/-- Entry point of `hitsZeroFuel` at fuel `n`. -/
def hitsZeroRow (rows : List RowT) : Prop := hitsZeroFuel rows.length rows

/-- The windowed dot product shared by back-substitution (lines 179-185)
and `decode` (lines 200-206): `for k in 0..offsets.len()`, skip the word
when its window `(i_id + k) * 64` starts at or beyond `s.len()`, otherwise
XOR `dot_u64_generic(offsets[k], &s[(i_id + k) * 64 ..])` into the
accumulator.  `wid` is the absolute word index `i_id + k`. -/
def winDot (s : List Nat) : Nat → List Nat → Nat → Nat
  | _, [], acc => acc
  | wid, w :: ws, acc =>
    winDot s (wid + 1) ws
      (if s.length ≤ wid * 64 then acc else acc ^^^ dot_u64_generic w (s.drop (wid * 64)))

/-- One step of back-substitution (newokvs.rs lines 168-187): recompute the
pivot offset `j`, accumulate `sum` starting from the row's value, and store
it at the pivot position `i_id * 64 + j`. -/
def applyRow (r : RowT) (s : List Nat) : List Nat :=
  s.set (r.start / 64 * 64 + findPivotD r.offs) (winDot s (r.start / 64) r.offs r.val)

/-- Back-substitution `for i in (0..n).rev()`: the last row is processed
first, the first row last. -/
def backsub : List RowT → List Nat → List Nat
  | [], s => s
  | r :: rest, s => applyRow r (backsub rest s)

/-- `(n as f64 * (1.0 + epsilon)).ceil() as usize`, modelled exactly over
the rationals (every `f64` value is rational; `as usize` clamps negatives
to 0, as `Int.toNat` does). -/
def encode_length (n : Nat) (ε : ℚ) : Nat := (⌈(n : ℚ) * (1 + ε)⌉).toNat

/-- `rows.sort_by(|a, b| a.0.cmp(&b.0))`: Rust's stable sort by
`start_index`, realized by the (stable) insertion sort. -/
def sortRows (rows : List RowT) : List RowT :=
  List.insertionSort (fun a b => a.start ≤ b.start) rows

/-- Row generation of `encode` (lines 117-121): one row per input pair. -/
def encodeRows (m width : Nat) (map : List ((Nat × List Nat) × Nat)) : List RowT :=
  map.map fun kv => ⟨(row_k m width kv.1).1, (row_k m width kv.1).2, kv.2⟩

/-- `OKVS::encode` (newokvs.rs lines 109-189): compute `m`, check
`m > width` (an assertion panic otherwise), generate and sort the rows,
triangularize (the singular panic becomes an error), back-substitute into
a zero vector of length `m`. -/
def encode (ε : ℚ) (width : Nat) (map : List ((Nat × List Nat) × Nat)) :
    Except String (List Nat) :=
  let m := encode_length map.length ε
  if m ≤ width then Except.error "assertion failed: m > self.width"
  else
    match triang (sortRows (encodeRows m width map)) with
    | none => Except.error "Matrix is singular"
    | some f => Except.ok (backsub f (List.replicate m 0))

/-- `OKVS::decode` (newokvs.rs lines 196-208): regenerate the key's row
for `m = okvs.len()` and return the windowed dot product with `okvs`.
When `okvs.len() ≤ width` the source's `start_index %= m - width` is a
remainder by zero (or an underflow of `m - width`), a panic: `none`. -/
def decode (width : Nat) (okvs : List Nat) (key : Nat × List Nat) : Option Nat :=
  if okvs.length ≤ width then none
  else
    let r := row_k okvs.length width key
    some (winDot okvs (r.1 / 64) r.2 0)

/-- Bit `t` of a packed word list, `t` counted from bit 0 of word 0. -/
def bitAt (o : List Nat) (t : Nat) : Bool := (o.getD (t / 64) 0).testBit (t % 64)

/-- Bit `p` (an absolute position in the `m`-bit row vector) of a packed
row whose word 0 sits at absolute word index `iid`. -/
def rowBit (iid : Nat) (o : List Nat) (p : Nat) : Bool :=
  decide (iid * 64 ≤ p) && bitAt o (p - iid * 64)

/-- Bit `p` of a row. -/
def RowT.bit (r : RowT) (p : Nat) : Bool := rowBit (r.start / 64) r.offs p

/-- The absolute pivot position of a row, `64 * (start / 64) + j`. -/
def pivotOf (r : RowT) : Nat := r.start / 64 * 64 + findPivotD r.offs

/-- XOR of `g p` over the positions `p` of the list `l`. -/
def xorSum (g : Nat → Nat) (l : List Nat) : Nat :=
  l.foldr (fun p acc => g p ^^^ acc) 0

/-- The abstract GF(2) dot product of a row with the vector `s`:
XOR of `s[p]` over the set bits `p < s.length` of the row. -/
def vDot (r : RowT) (s : List Nat) : Nat :=
  xorSum (fun p => if r.bit p then s.getD p 0 else 0) (List.range s.length)

/-- Well-formedness of a row during encoding: `count` packed words, each a
64-bit word, and every set bit lies in `[start, m)`. -/
def RowWf (m count : Nat) (r : RowT) : Prop :=
  r.offs.length = count ∧ (∀ w ∈ r.offs, w < 2 ^ 64) ∧
    ∀ p, r.bit p = true → r.start ≤ p ∧ p < m

/-- The key and offsets part of a row (forgetting the value). -/
def eraseVal (r : RowT) : Nat × List Nat := (r.start, r.offs)

/-- The number of set bits of a packed row. -/
def rowSetBits (o : List Nat) : Nat :=
  ((Finset.range (64 * o.length)).filter (fun t => bitAt o t = true)).card

/-- How one pass of the inner elimination loop relates an input row to the
corresponding output row: the start is unchanged, and the row is either
untouched (because the loop broke before it or its pivot bit is clear) or
XORed with the pivot row's words and value. -/
def ElimRel (iid j : Nat) (oi : List Nat) (vi : Nat) (r r' : RowT) : Prop :=
  r'.start = r.start ∧
    ((r' = r ∧ (iid * 64 + j < r.start ∨ rowBit (r.start / 64) r.offs (iid * 64 + j) = false)) ∨
      (r'.offs = xorWords r.offs (oi.drop (r.start / 64 - iid)) ∧ r'.val = r.val ^^^ vi ∧
        r.start ≤ iid * 64 + j ∧ rowBit (r.start / 64) r.offs (iid * 64 + j) = true))

/-! ## List helpers -/

theorem getD_set_self {l : List Nat} {i : Nat} {x : Nat} (h : i < l.length) :
    (l.set i x).getD i 0 = x := by
  induction l generalizing i with
  | nil => simp at h
  | cons a l ih =>
    cases i with
    | zero => simp [List.set]
    | succ i => simpa [List.set] using ih (by simpa using h)

theorem getD_set_ne {l : List Nat} {i j : Nat} {x : Nat} (h : i ≠ j) :
    (l.set i x).getD j 0 = l.getD j 0 := by
  induction l generalizing i j with
  | nil => simp [List.set]
  | cons a l ih =>
    cases i with
    | zero => cases j with
      | zero => omega
      | succ j => simp [List.set]
    | succ i =>
      cases j with
      | zero => simp [List.set]
      | succ j => simpa [List.set] using ih (by omega)

theorem getD_drop {l : List Nat} {n t : Nat} : (l.drop n).getD t 0 = l.getD (n + t) 0 := by
  induction l generalizing n with
  | nil => simp
  | cons a l ih =>
    cases n with
    | zero => simp
    | succ n => simp [Nat.succ_add, ih]

theorem xorWords_length {d s : List Nat} : (xorWords d s).length = d.length := by
  induction d generalizing s with
  | nil => cases s <;> simp [xorWords]
  | cons a d ih => cases s <;> simp [xorWords, ih]

theorem getD_xorWords {d s : List Nat} (h : s.length ≤ d.length) (t : Nat) :
    (xorWords d s).getD t 0 = d.getD t 0 ^^^ s.getD t 0 := by
  induction d generalizing s t with
  | nil =>
    cases s with
    | nil => simp [xorWords]
    | cons b s => simp at h
  | cons a d ih =>
    cases s with
    | nil => simp [xorWords]
    | cons b s =>
      cases t with
      | zero => simp [xorWords]
      | succ t => simpa [xorWords] using ih (by simpa using h) t

/-! ## Trailing zeros and the pivot search -/

theorem ctzAux_spec : ∀ (f x : Nat), x ≠ 0 → x < 2 ^ f →
    x.testBit (ctzAux f x) = true ∧ ∀ t < ctzAux f x, x.testBit t = false := by
  intro f
  induction f with
  | zero => intro x hx hlt; omega
  | succ f ih =>
    intro x hx hlt
    unfold ctzAux
    by_cases h : x % 2 = 1
    · simp [h]
    · have hx2 : x / 2 ≠ 0 := by omega
      have hlt2 : x / 2 < 2 ^ f := by
        rw [pow_succ] at hlt; omega
      obtain ⟨h1, h2⟩ := ih (x / 2) hx2 hlt2
      simp only [h, if_false]
      refine ⟨by rw [Nat.testBit_add_one]; exact h1, ?_⟩
      intro t ht
      cases t with
      | zero => simp only [Nat.testBit_zero]; simp [h]
      | succ t => rw [Nat.testBit_add_one]; exact h2 t (by omega)

theorem ctz64_spec {x : Nat} (hx : x ≠ 0) (hlt : x < 2 ^ 64) :
    x.testBit (ctz64 x) = true ∧ ∀ t < ctz64 x, x.testBit t = false :=
  ctzAux_spec 64 x hx hlt

theorem ctz64_lt {x : Nat} (hx : x ≠ 0) (hlt : x < 2 ^ 64) : ctz64 x < 64 := by
  have h := (ctz64_spec hx hlt).1
  by_contra hge
  have : x < 2 ^ ctz64 x :=
    lt_of_lt_of_le hlt (Nat.pow_le_pow_right (by omega) (by omega))
  rw [Nat.testBit_lt_two_pow this] at h
  exact Bool.false_ne_true h

theorem bitAt_cons {w : Nat} {ws : List Nat} {t : Nat} :
    bitAt (w :: ws) t = if t < 64 then w.testBit t else bitAt ws (t - 64) := by
  unfold bitAt
  by_cases h : t < 64
  · have h1 : t / 64 = 0 := by omega
    have h2 : t % 64 = t := by omega
    simp [h1, h2, h]
  · have h1 : t / 64 = (t - 64) / 64 + 1 := by omega
    have h2 : t % 64 = (t - 64) % 64 := by omega
    simp [h1, h2, h]

theorem bitAt_nil {t : Nat} : bitAt [] t = false := by
  simp [bitAt]

theorem bitAt_ge_length {o : List Nat} (hw : ∀ w ∈ o, w < 2 ^ 64) {t : Nat}
    (h : 64 * o.length ≤ t) : bitAt o t = false := by
  induction o generalizing t with
  | nil => exact bitAt_nil
  | cons w ws ih =>
    rw [bitAt_cons]
    simp only [List.length_cons] at h
    have ht : ¬ t < 64 := by omega
    simp only [ht, if_false]
    exact ih (fun u hu => hw u (List.mem_cons_of_mem _ hu)) (by omega)

theorem findPivot_none_iff {o : List Nat} : findPivot o = none ↔ ∀ w ∈ o, w = 0 := by
  induction o with
  | nil => simp [findPivot]
  | cons w ws ih =>
    unfold findPivot
    by_cases h : w = 0
    · simp [h, ih]
    · simp only [h, ne_eq, not_false_iff, if_true]
      constructor
      · intro hx; simp at hx
      · intro hx; exact absurd (hx w (List.mem_cons_self w ws)) h

theorem findPivot_spec {o : List Nat} (hw : ∀ w ∈ o, w < 2 ^ 64) {j : Nat}
    (h : findPivot o = some j) :
    j < 64 * o.length ∧ bitAt o j = true ∧ ∀ t < j, bitAt o t = false := by
  induction o generalizing j with
  | nil => simp [findPivot] at h
  | cons w ws ih =>
    unfold findPivot at h
    by_cases hz : w = 0
    · rw [if_neg (by simp [hz]), Option.map_eq_some'] at h
      obtain ⟨j', hj', rfl⟩ := h
      obtain ⟨hb1, hb2, hb3⟩ := ih (fun u hu => hw u (List.mem_cons_of_mem _ hu)) hj'
      refine ⟨by simp [List.length_cons]; omega, ?_, ?_⟩
      · rw [bitAt_cons]
        simp only [show ¬ j' + 64 < 64 by omega, if_false, Nat.add_sub_cancel]
        exact hb2
      · intro t ht
        rw [bitAt_cons]
        by_cases htl : t < 64
        · simp [htl, hz]
        · simp only [htl, if_false]
          exact hb3 (t - 64) (by omega)
    · rw [if_pos hz, Option.some.injEq] at h
      subst h
      have hwlt : w < 2 ^ 64 := hw w (List.mem_cons_self w ws)
      have hc := ctz64_spec hz hwlt
      have hcl := ctz64_lt hz hwlt
      refine ⟨by simp [List.length_cons]; omega, ?_, ?_⟩
      · rw [bitAt_cons]; simp [hcl, hc.1]
      · intro t ht
        rw [bitAt_cons]
        simp only [show t < 64 by omega, if_true]
        exact hc.2 t ht

theorem findPivotD_eq_of_some {o : List Nat} {j : Nat} (h : findPivot o = some j) :
    findPivotD o = j := by
  simp [findPivotD, h]

/-! ## The `row_k` masks -/

theorem testBit_not64 {x t : Nat} (ht : t < 64) : (not64 x).testBit t = ! x.testBit t := by
  unfold not64
  rw [Nat.testBit_xor, Nat.testBit_two_pow_sub_one]
  simp [ht]

theorem testBit_shiftLeft_one {k t : Nat} : ((1 <<< k) - 1).testBit t = decide (t < k) := by
  rw [Nat.one_shiftLeft]
  exact Nat.testBit_two_pow_sub_one k t

theorem testBit_maskLow {x k t : Nat} (ht : t < 64) :
    (x &&& not64 ((1 <<< k) - 1)).testBit t = (x.testBit t && decide (k ≤ t)) := by
  rw [Nat.testBit_and, testBit_not64 ht, testBit_shiftLeft_one]
  congr 1
  by_cases h : t < k
  · simp [h, show ¬ k ≤ t by omega]
  · simp [h, show k ≤ t by omega]

theorem testBit_maskHigh {x r t : Nat} :
    (x &&& ((1 <<< r) - 1)).testBit t = (x.testBit t && decide (t < r)) := by
  rw [Nat.testBit_and, testBit_shiftLeft_one]

/-- The arithmetic behind the `assert!` in `row_k` and behind the safety of
skipping the final-word mask when `last == count`. -/
theorem rowCount_arith (width s64 : Nat) (hw : 2 ≤ width) (hs : s64 < 64) :
    rowCount width - 2 ≤ (s64 + width) / 64 ∧ (s64 + width) / 64 ≤ rowCount width ∧
      s64 + width ≤ 64 * rowCount width := by
  unfold rowCount
  omega

/-- A set bit of a packed word list lies inside its words. -/
theorem bitAt_true_lt {o : List Nat} {t : Nat} (h : bitAt o t = true) : t / 64 < o.length := by
  by_contra hge
  unfold bitAt at h
  rw [List.getD_eq_default _ _ (by omega)] at h
  rw [Nat.zero_testBit] at h
  exact Bool.false_ne_true h

/-- `maskOffsets` only rewrites words, so the word count is unchanged. -/
theorem maskOffsets_length {width s : Nat} {o : List Nat} :
    (maskOffsets width s o).length = o.length := by
  simp only [maskOffsets]
  split <;> split <;> simp

/-- `row_k` keeps the word count of the hash output. -/
theorem row_k_length {m width : Nat} {key : Nat × List Nat} :
    (row_k m width key).2.length = key.2.length := by
  unfold row_k
  exact maskOffsets_length

/-- The start index returned by `row_k` is `< m - width`. -/
theorem row_k_start_lt {m width : Nat} {key : Nat × List Nat} (hm : width < m) :
    (row_k m width key).1 < m - width := by
  unfold row_k
  exact Nat.mod_lt _ (by omega)

/-- Characterization of the band masking: bit `t` (relative to bit 0 of
word 0) of the masked row equals the raw hash bit exactly on the band
`[s mod 64, s mod 64 + width)` and is zero elsewhere. -/
theorem maskOffsets_bitAt {width s : Nat} {o : List Nat} (hwidth : 2 ≤ width)
    (hlen : o.length = rowCount width) (t : Nat) :
    bitAt (maskOffsets width s o) t
      = (bitAt o t && decide (s % 64 ≤ t ∧ t < s % 64 + width)) := by
  have hcount2 : 2 ≤ rowCount width := by unfold rowCount; omega
  have hs64 : s % 64 < 64 := Nat.mod_lt _ (by omega)
  obtain ⟨ha1, ha2, ha3⟩ := rowCount_arith width (s % 64) hwidth hs64
  have hsw : (s + width) % 64 = (s % 64 + width) % 64 := by omega
  unfold maskOffsets
  simp only [hsw]
  set o1 := o.set 0 ((o.getD 0 0) &&& not64 ((1 <<< (s % 64)) - 1)) with ho1
  have ho1len : o1.length = rowCount width := by rw [ho1, List.length_set, hlen]
  have hb1 : ∀ u, bitAt o1 u = (bitAt o u && decide (u < 64 → s % 64 ≤ u)) := by
    intro u
    unfold bitAt
    by_cases hu : u / 64 = 0
    · rw [ho1, hu, getD_set_self (by omega)]
      rw [testBit_maskLow (Nat.mod_lt _ (by omega))]
      have hu64 : u < 64 := by omega
      have humod : u % 64 = u := by omega
      simp [humod, hu64]
    · rw [ho1, getD_set_ne (by omega)]
      have : ¬ u < 64 := by omega
      simp [this]
  by_cases hL : (s % 64 + width) / 64 < rowCount width
  · rw [if_pos hL]
    set o2 := o1.set ((s % 64 + width) / 64)
      (o1.getD ((s % 64 + width) / 64) 0 &&& (1 <<< ((s % 64 + width) % 64) - 1)) with ho2
    have ho2len : o2.length = rowCount width := by rw [ho2, List.length_set, ho1len]
    have hb2 : ∀ u, bitAt o2 u
        = (bitAt o1 u && decide (u / 64 = (s % 64 + width) / 64 → u % 64 < (s % 64 + width) % 64)) := by
      intro u
      unfold bitAt
      by_cases hu : u / 64 = (s % 64 + width) / 64
      · rw [ho2, hu, getD_set_self (by omega), testBit_maskHigh]
        simp [hu]
      · rw [ho2, getD_set_ne (by omega)]
        simp [hu]
    by_cases h2 : (s % 64 + width) / 64 = rowCount width - 2
    · rw [if_pos h2]
      have hb3 : ∀ u, bitAt (o2.set ((s % 64 + width) / 64 + 1) 0) u
          = (bitAt o2 u && decide (u / 64 ≠ (s % 64 + width) / 64 + 1)) := by
        intro u
        unfold bitAt
        by_cases hu : u / 64 = (s % 64 + width) / 64 + 1
        · rw [hu, getD_set_self (by omega)]
          simp [hu, Nat.zero_testBit]
        · rw [getD_set_ne (by omega)]
          simp [hu]
      rw [hb3 t, hb2 t, hb1 t]
      cases hbo : bitAt o t with
      | false => simp
      | true =>
        have htlt : t / 64 < rowCount width := hlen ▸ bitAt_true_lt hbo
        rw [Bool.eq_iff_iff]
        simp only [Bool.true_and, Bool.and_eq_true, decide_eq_true_eq]
        omega
    · rw [if_neg h2]
      rw [hb2 t, hb1 t]
      cases hbo : bitAt o t with
      | false => simp
      | true =>
        have htlt : t / 64 < rowCount width := hlen ▸ bitAt_true_lt hbo
        rw [Bool.eq_iff_iff]
        simp only [Bool.true_and, Bool.and_eq_true, decide_eq_true_eq]
        omega
  · rw [if_neg hL, if_neg (by omega)]
    rw [hb1 t]
    cases hbo : bitAt o t with
    | false => simp
    | true =>
      have htlt : t / 64 < rowCount width := hlen ▸ bitAt_true_lt hbo
      rw [Bool.eq_iff_iff]
      simp only [Bool.true_and, Bool.and_eq_true, decide_eq_true_eq]
      omega


/-! ## XOR sums -/

theorem xorSum_nil {g : Nat → Nat} : xorSum g [] = 0 := rfl

theorem xorSum_cons {g : Nat → Nat} {p : Nat} {l : List Nat} :
    xorSum g (p :: l) = g p ^^^ xorSum g l := rfl

theorem foldr_xor_acc {g : Nat → Nat} {l : List Nat} {a : Nat} :
    l.foldr (fun p acc => g p ^^^ acc) a = xorSum g l ^^^ a := by
  induction l with
  | nil => simp [xorSum]
  | cons p l ih => simp [xorSum, List.foldr_cons, ih, Nat.xor_assoc]

theorem xorSum_append {g : Nat → Nat} {l₁ l₂ : List Nat} :
    xorSum g (l₁ ++ l₂) = xorSum g l₁ ^^^ xorSum g l₂ := by
  induction l₁ with
  | nil => simp [xorSum_nil, xorSum]
  | cons p l ih => rw [List.cons_append, xorSum_cons, xorSum_cons, ih, Nat.xor_assoc]

theorem xorSum_congr {g h : Nat → Nat} {l : List Nat} (hgh : ∀ p ∈ l, g p = h p) :
    xorSum g l = xorSum h l := by
  induction l with
  | nil => rfl
  | cons p l ih =>
    rw [xorSum_cons, xorSum_cons, hgh p (List.mem_cons_self p l),
      ih (fun q hq => hgh q (List.mem_cons_of_mem _ hq))]

theorem xorSum_eq_zero {g : Nat → Nat} {l : List Nat} (hg : ∀ p ∈ l, g p = 0) :
    xorSum g l = 0 := by
  induction l with
  | nil => rfl
  | cons p l ih =>
    rw [xorSum_cons, hg p (List.mem_cons_self p l),
      ih (fun q hq => hg q (List.mem_cons_of_mem _ hq))]
    simp

theorem foldl_xor_eq {g : Nat → Nat} {l : List Nat} {a : Nat} :
    l.foldl (fun out i => out ^^^ g i) a = a ^^^ xorSum g l := by
  induction l generalizing a with
  | nil => simp [xorSum]
  | cons p l ih => rw [List.foldl_cons, ih, xorSum_cons, Nat.xor_assoc]

theorem xorSum_map {g : Nat → Nat} {fn : Nat → Nat} {l : List Nat} :
    xorSum g (l.map fn) = xorSum (fun p => g (fn p)) l := by
  unfold xorSum
  rw [List.foldr_map]

theorem xorSum_range' {g : Nat → Nat} {q n : Nat} :
    xorSum g (List.range' q n) = xorSum (fun i => g (q + i)) (List.range n) := by
  rw [List.range'_eq_map_range, xorSum_map]

/-! ## The bit-dot kernel -/

theorem mul_bit_eq {x a i : Nat} :
    x * ((a >>> i) &&& 1) = if a.testBit i then x else 0 := by
  rw [Nat.and_one_is_mod, Nat.shiftRight_eq_div_pow, Nat.testBit_to_div_mod]
  by_cases h : a / 2 ^ i % 2 = 1
  · simp [h]
  · have h0 : a / 2 ^ i % 2 = 0 := by omega
    simp [h, h0]

theorem dotUnrolled_eq_foldl {a : Nat} {b : List Nat} :
    dotUnrolled a b
      = (List.range 64).foldl (fun out i => out ^^^ b.getD i 0 * ((a >>> i) &&& 1)) 0 := by
  rfl

/-- The bit-dot kernel computes the XOR of `b[i]` over the set bits `i` of
`a` below `min 64 b.length`. -/
theorem dot_u64_generic_spec {a : Nat} {b : List Nat} :
    dot_u64_generic a b
      = xorSum (fun i => if a.testBit i then b.getD i 0 else 0)
          (List.range (min 64 b.length)) := by
  unfold dot_u64_generic
  by_cases h : 64 ≤ b.length
  · rw [if_pos h, dotUnrolled_eq_foldl, foldl_xor_eq, Nat.zero_xor,
      show min 64 b.length = 64 by omega]
    exact xorSum_congr (fun p _ => mul_bit_eq)
  · rw [if_neg h]
    unfold dotShort
    rw [foldl_xor_eq, Nat.zero_xor, show min 64 b.length = b.length by omega]
    exact xorSum_congr (fun p _ => mul_bit_eq)

/-! ## The windowed dot product -/

theorem rowBit_lt_start {iid : Nat} {o : List Nat} {p : Nat} (h : p < iid * 64) :
    rowBit iid o p = false := by
  unfold rowBit
  simp [show ¬ iid * 64 ≤ p by omega]

theorem rowBit_cons_low {iid : Nat} {w : Nat} {ws : List Nat} {p : Nat}
    (h1 : iid * 64 ≤ p) (h2 : p < iid * 64 + 64) :
    rowBit iid (w :: ws) p = w.testBit (p - iid * 64) := by
  unfold rowBit
  rw [bitAt_cons]
  simp [h1, show p - iid * 64 < 64 by omega]

theorem rowBit_cons_high {iid : Nat} {w : Nat} {ws : List Nat} {p : Nat}
    (h : iid * 64 + 64 ≤ p) :
    rowBit iid (w :: ws) p = rowBit (iid + 1) ws p := by
  unfold rowBit
  rw [bitAt_cons]
  have h1 : iid * 64 ≤ p := by omega
  have h2 : (iid + 1) * 64 ≤ p := by omega
  have h3 : ¬ p - iid * 64 < 64 := by omega
  have h4 : p - iid * 64 - 64 = p - (iid + 1) * 64 := by omega
  simp [h1, h2, h3, h4]

theorem winDot_nil {s : List Nat} {wid acc : Nat} : winDot s wid [] acc = acc := rfl

theorem winDot_cons {s : List Nat} {w : Nat} {ws : List Nat} {wid acc : Nat} :
    winDot s wid (w :: ws) acc
      = winDot s (wid + 1) ws
          (if s.length ≤ wid * 64 then acc else acc ^^^ dot_u64_generic w (s.drop (wid * 64))) :=
  rfl

theorem winDot_acc {s : List Nat} {ws : List Nat} :
    ∀ {wid acc : Nat}, winDot s wid ws acc = acc ^^^ winDot s wid ws 0 := by
  induction ws with
  | nil => intro wid acc; simp [winDot_nil]
  | cons w ws ih =>
    intro wid acc
    rw [winDot_cons, winDot_cons]
    by_cases h : s.length ≤ wid * 64
    · simp only [if_pos h]
      exact ih
    · simp only [if_neg h]
      rw [@ih (wid + 1) (acc ^^^ dot_u64_generic w (s.drop (wid * 64))),
        @ih (wid + 1) (0 ^^^ dot_u64_generic w (s.drop (wid * 64))), Nat.zero_xor,
        Nat.xor_assoc]

/-- The windowed dot product of `decode`/back-substitution equals the
abstract XOR over the absolute positions `[wid * 64, s.length)`. -/
theorem winDot_eq {s : List Nat} :
    ∀ (ws : List Nat) (wid : Nat),
      winDot s wid ws 0
        = xorSum (fun p => if rowBit wid ws p then s.getD p 0 else 0)
            (List.range' (wid * 64) (s.length - wid * 64)) := by
  intro ws
  induction ws with
  | nil =>
    intro wid
    rw [winDot_nil, xorSum_eq_zero]
    intro p _
    simp [rowBit, bitAt_nil]
  | cons w ws ih =>
    intro wid
    rw [winDot_cons]
    by_cases h : s.length ≤ wid * 64
    · simp only [if_pos h]
      rw [ih (wid + 1)]
      have e1 : s.length - wid * 64 = 0 := by omega
      have e2 : s.length - (wid + 1) * 64 = 0 := by omega
      rw [e1, e2]
      simp [List.range'_zero, xorSum_nil]
    · simp only [if_neg h, Nat.zero_xor]
      have hsplit : List.range' (wid * 64) (min 64 (s.length - wid * 64)) ++
          List.range' (wid * 64 + min 64 (s.length - wid * 64))
            (s.length - wid * 64 - min 64 (s.length - wid * 64))
          = List.range' (wid * 64) (s.length - wid * 64) := by
        rw [List.range'_append_1]
        congr 1
        omega
      have hchunk2 : xorSum (fun p => if rowBit (wid + 1) ws p then s.getD p 0 else 0)
          (List.range' ((wid + 1) * 64) (s.length - (wid + 1) * 64))
          = xorSum (fun p => if rowBit wid (w :: ws) p then s.getD p 0 else 0)
            (List.range' (wid * 64 + min 64 (s.length - wid * 64))
              (s.length - wid * 64 - min 64 (s.length - wid * 64))) := by
        by_cases h64 : 64 ≤ s.length - wid * 64
        · have e1 : min 64 (s.length - wid * 64) = 64 := by omega
          have e2 : wid * 64 + 64 = (wid + 1) * 64 := by omega
          have e3 : s.length - wid * 64 - 64 = s.length - (wid + 1) * 64 := by omega
          rw [e1, e2, e3]
          apply xorSum_congr
          intro p hp
          obtain ⟨i, hi, rfl⟩ := List.mem_range'.mp hp
          rw [rowBit_cons_high (by omega)]
        · have hz1 : s.length - wid * 64 - min 64 (s.length - wid * 64) = 0 := by omega
          have hz2 : s.length - (wid + 1) * 64 = 0 := by omega
          rw [hz1, hz2]
          simp [List.range'_zero, xorSum_nil]
      rw [winDot_acc, ih (wid + 1), ← hsplit, xorSum_append, hchunk2]
      congr 1
      rw [dot_u64_generic_spec, List.length_drop, xorSum_range']
      apply xorSum_congr
      intro i hi
      have hi' : i < min 64 (s.length - wid * 64) := List.mem_range.mp hi
      rw [getD_drop,
        rowBit_cons_low (show wid * 64 ≤ wid * 64 + i by omega)
          (show wid * 64 + i < wid * 64 + 64 by omega),
        show wid * 64 + i - wid * 64 = i by omega]


/-! ## The elimination loop -/

theorem rowBit_iff {iid : Nat} {o : List Nat} {p : Nat} :
    rowBit iid o p = true ↔ iid * 64 ≤ p ∧ bitAt o (p - iid * 64) = true := by
  unfold rowBit
  simp

theorem pivotCheck_eq_rowBit {iid j : Nat} {r : RowT} (hks : iid ≤ r.start / 64)
    (hsp : r.start ≤ iid * 64 + j) :
    ((r.offs.getD (j / 64 - (r.start / 64 - iid)) 0 >>> (j % 64)) &&& 1 ≠ 0
      ↔ rowBit (r.start / 64) r.offs (iid * 64 + j) = true) := by
  obtain ⟨idoff, hio⟩ : ∃ idoff, r.start / 64 = iid + idoff := ⟨r.start / 64 - iid, by omega⟩
  have hstart64 : r.start / 64 * 64 ≤ r.start := by omega
  have hj64 : idoff * 64 ≤ j := by omega
  unfold rowBit bitAt
  rw [hio, show iid + idoff - iid = idoff by omega]
  have hk : (iid + idoff) * 64 ≤ iid * 64 + j := by omega
  have e1 : iid * 64 + j - (iid + idoff) * 64 = j - idoff * 64 := by omega
  have e2 : (j - idoff * 64) / 64 = j / 64 - idoff := by omega
  have e3 : (j - idoff * 64) % 64 = j % 64 := by omega
  rw [e1, e2, e3]
  rw [Nat.and_one_is_mod, Nat.shiftRight_eq_div_pow, Nat.testBit_to_div_mod]
  simp only [Bool.and_eq_true, decide_eq_true_eq, ne_eq]
  omega

theorem xorWords_words_lt {d s : List Nat} (hd : ∀ w ∈ d, w < 2 ^ 64)
    (hs : ∀ w ∈ s, w < 2 ^ 64) : ∀ w ∈ xorWords d s, w < 2 ^ 64 := by
  induction d generalizing s with
  | nil => cases s <;> simp [xorWords]
  | cons a d ih =>
    cases s with
    | nil => simpa [xorWords] using hd
    | cons b s =>
      intro w hw
      rw [show xorWords (a :: d) (b :: s) = (a ^^^ b) :: xorWords d s from rfl] at hw
      rcases List.mem_cons.mp hw with h | h
      · subst h
        exact Nat.xor_lt_two_pow (hd a (by simp)) (hs b (by simp))
      · exact ih (fun u hu => hd u (by simp [hu])) (fun u hu => hs u (by simp [hu])) w h

/-- Word-level XOR with an `id_offset` shift is bitwise XOR of the two rows,
provided the pivot row has no set bits below the target row's word base. -/
theorem rowBit_xorWords {iid kid : Nat} {oi ok : List Nat} (hik : iid ≤ kid)
    (hlen : oi.length = ok.length)
    (hlow : ∀ p, p < kid * 64 → rowBit iid oi p = false) (p : Nat) :
    rowBit kid (xorWords ok (oi.drop (kid - iid))) p
      = ((rowBit kid ok p).xor (rowBit iid oi p)) := by
  by_cases hp : kid * 64 ≤ p
  · unfold rowBit bitAt
    rw [getD_xorWords (by rw [List.length_drop]; omega), getD_drop, Nat.testBit_xor]
    have e1 : kid - iid + (p - kid * 64) / 64 = (p - iid * 64) / 64 := by omega
    have e2 : (p - kid * 64) % 64 = (p - iid * 64) % 64 := by omega
    rw [e1, e2]
    simp [hp, show iid * 64 ≤ p by omega]
  · rw [rowBit_lt_start (by omega), rowBit_lt_start (by omega), hlow p (by omega)]
    rfl

theorem elimLoop_nil {iid j : Nat} {oi : List Nat} {vi : Nat} :
    elimLoop iid j oi vi [] = [] := rfl

theorem elimLoop_cons {iid j : Nat} {oi : List Nat} {vi : Nat} {r : RowT} {rest : List RowT} :
    elimLoop iid j oi vi (r :: rest)
      = if iid * 64 + j < r.start then r :: rest
        else if (r.offs.getD (j / 64 - (r.start / 64 - iid)) 0 >>> (j % 64)) &&& 1 ≠ 0 then
          ⟨r.start, xorWords r.offs (oi.drop (r.start / 64 - iid)), r.val ^^^ vi⟩ ::
            elimLoop iid j oi vi rest
        else r :: elimLoop iid j oi vi rest := rfl

theorem elimLoop_length {iid j : Nat} {oi : List Nat} {vi : Nat} :
    ∀ L : List RowT, (elimLoop iid j oi vi L).length = L.length := by
  intro L
  induction L with
  | nil => rfl
  | cons r rest ih =>
    rw [elimLoop_cons]
    by_cases h1 : iid * 64 + j < r.start
    · rw [if_pos h1]
    · rw [if_neg h1]
      by_cases h2 : (r.offs.getD (j / 64 - (r.start / 64 - iid)) 0 >>> (j % 64)) &&& 1 ≠ 0
      · rw [if_pos h2]; simp [ih]
      · rw [if_neg h2]; simp [ih]

theorem forall₂_exists_left {R : RowT → RowT → Prop} :
    ∀ {L L' : List RowT}, List.Forall₂ R L L' → ∀ r ∈ L, ∃ r' ∈ L', R r r' := by
  intro L L' h
  induction h with
  | nil => intro r hr; cases hr
  | cons hR hrest ih =>
    intro r hr
    rcases List.mem_cons.mp hr with h | h
    · subst h; exact ⟨_, by simp, hR⟩
    · obtain ⟨r', hr', hRr⟩ := ih r h
      exact ⟨r', by simp [hr'], hRr⟩

theorem forall₂_exists_right {R : RowT → RowT → Prop} :
    ∀ {L L' : List RowT}, List.Forall₂ R L L' → ∀ r' ∈ L', ∃ r ∈ L, R r r' := by
  intro L L' h
  induction h with
  | nil => intro r hr; cases hr
  | cons hR hrest ih =>
    intro r' hr'
    rcases List.mem_cons.mp hr' with h | h
    · subst h; exact ⟨_, by simp, hR⟩
    · obtain ⟨r, hr, hRr⟩ := ih r' h
      exact ⟨r, by simp [hr], hRr⟩

/-- The inner elimination loop, seen row by row. -/
theorem elimLoop_forall₂ {iid j : Nat} {oi : List Nat} {vi : Nat} :
    ∀ {L : List RowT}, (∀ r ∈ L, iid * 64 ≤ r.start) →
      List.Pairwise (fun a b : RowT => a.start ≤ b.start) L →
      List.Forall₂ (ElimRel iid j oi vi) L (elimLoop iid j oi vi L) := by
  intro L
  induction L with
  | nil => intro _ _; rw [elimLoop_nil]; exact List.Forall₂.nil
  | cons r rest ih =>
    intro hst hsort
    rw [elimLoop_cons]
    by_cases h1 : iid * 64 + j < r.start
    · rw [if_pos h1]
      refine List.Forall₂.cons ⟨rfl, Or.inl ⟨rfl, Or.inl h1⟩⟩ ?_
      rw [List.forall₂_same]
      intro q hq
      exact ⟨rfl, Or.inl ⟨rfl, Or.inl
        (lt_of_lt_of_le h1 (List.rel_of_pairwise_cons hsort hq))⟩⟩
    · rw [if_neg h1]
      have hks : iid ≤ r.start / 64 := by
        have := hst r (List.mem_cons_self r rest); omega
      have hrest := ih (fun q hq => hst q (List.mem_cons_of_mem _ hq)) hsort.of_cons
      by_cases h2 : (r.offs.getD (j / 64 - (r.start / 64 - iid)) 0 >>> (j % 64)) &&& 1 ≠ 0
      · rw [if_pos h2]
        exact List.Forall₂.cons
          ⟨rfl, Or.inr ⟨rfl, rfl, by omega, (pivotCheck_eq_rowBit hks (by omega)).mp h2⟩⟩ hrest
      · rw [if_neg h2]
        refine List.Forall₂.cons ⟨rfl, Or.inl ⟨rfl, Or.inr ?_⟩⟩ hrest
        rw [← Bool.not_eq_true]
        exact fun hb => h2 ((pivotCheck_eq_rowBit hks (by omega)).mpr hb)


/-! ## Linearity of the abstract dot product -/

theorem xorSum_xor {g h : Nat → Nat} {l : List Nat} :
    xorSum (fun p => g p ^^^ h p) l = xorSum g l ^^^ xorSum h l := by
  induction l with
  | nil => simp [xorSum_nil]
  | cons p l ih =>
    rw [xorSum_cons, xorSum_cons, xorSum_cons, ih]
    calc g p ^^^ h p ^^^ (xorSum g l ^^^ xorSum h l)
        = g p ^^^ (h p ^^^ (xorSum g l ^^^ xorSum h l)) := by rw [Nat.xor_assoc]
      _ = g p ^^^ (h p ^^^ xorSum g l ^^^ xorSum h l) := by rw [Nat.xor_assoc]
      _ = g p ^^^ (xorSum g l ^^^ h p ^^^ xorSum h l) := by rw [Nat.xor_comm (h p) (xorSum g l)]
      _ = g p ^^^ (xorSum g l ^^^ (h p ^^^ xorSum h l)) := by rw [Nat.xor_assoc]
      _ = g p ^^^ xorSum g l ^^^ (h p ^^^ xorSum h l) := by rw [Nat.xor_assoc]

theorem vDot_of_bit_xor {r a b : RowT} {S : List Nat}
    (h : ∀ p, r.bit p = ((a.bit p).xor (b.bit p))) :
    vDot r S = vDot a S ^^^ vDot b S := by
  unfold vDot
  rw [← xorSum_xor]
  apply xorSum_congr
  intro p _
  rw [h p]
  cases ha : a.bit p <;> cases hb : b.bit p <;> simp [Nat.xor_self]

/-! ## Consequences of the elimination relation -/

theorem elimRel_cases {iid j : Nat} {oi : List Nat} {vi : Nat} {r r' : RowT}
    (hrel : ElimRel iid j oi vi r r')
    (hik : iid * 64 ≤ r.start) (hlenoi : oi.length = r.offs.length)
    (hlow : ∀ p, rowBit iid oi p = true → iid * 64 + j ≤ p) :
    r'.start = r.start ∧ r'.offs.length = r.offs.length ∧
      ((r' = r ∧ (iid * 64 + j < r.start ∨ r.bit (iid * 64 + j) = false)) ∨
        (r'.offs = xorWords r.offs (oi.drop (r.start / 64 - iid)) ∧
          (∀ p, r'.bit p = ((r.bit p).xor (rowBit iid oi p))) ∧ r'.val = r.val ^^^ vi ∧
          r.start ≤ iid * 64 + j ∧ r.bit (iid * 64 + j) = true)) := by
  obtain ⟨hst, hcase⟩ := hrel
  rcases hcase with ⟨heq, hwhy⟩ | ⟨hoffs, hval, hsp, hbit⟩
  · exact ⟨hst, by rw [heq], Or.inl ⟨heq, hwhy⟩⟩
  · have hks : iid ≤ r.start / 64 := by omega
    refine ⟨hst, by rw [hoffs, xorWords_length], Or.inr ⟨hoffs, ?_, hval, hsp, hbit⟩⟩
    · intro p
      unfold RowT.bit
      rw [hst, hoffs]
      exact rowBit_xorWords hks hlenoi
        (fun p hp => by
          cases hb : rowBit iid oi p with
          | false => rfl
          | true => exact absurd (hlow p hb) (by omega)) p

theorem elimLoop_map_start {iid j : Nat} {oi : List Nat} {vi : Nat} :
    ∀ L : List RowT, (elimLoop iid j oi vi L).map RowT.start = L.map RowT.start := by
  intro L
  induction L with
  | nil => rfl
  | cons r rest ih =>
    rw [elimLoop_cons]
    by_cases h1 : iid * 64 + j < r.start
    · rw [if_pos h1]
    · rw [if_neg h1]
      by_cases h2 : (r.offs.getD (j / 64 - (r.start / 64 - iid)) 0 >>> (j % 64)) &&& 1 ≠ 0
      · rw [if_pos h2]; simp [ih]
      · rw [if_neg h2]; simp [ih]

theorem pairwise_start_of_map_eq {L L' : List RowT}
    (h : L.map RowT.start = L'.map RowT.start)
    (hp : List.Pairwise (fun a b : RowT => a.start ≤ b.start) L) :
    List.Pairwise (fun a b : RowT => a.start ≤ b.start) L' := by
  have key : ∀ (M : List RowT),
      (M.map RowT.start).Pairwise (fun x y : Nat => x ≤ y)
        ↔ M.Pairwise (fun a b : RowT => a.start ≤ b.start) :=
    fun M => List.pairwise_map
  rw [← key L', ← h]
  exact (key L).mpr hp

/-- The pivot of a non-singular row: its bit is set, it is the lowest set
bit, and it lies within the packed words. -/
theorem pivot_facts {r : RowT} (hw : ∀ w ∈ r.offs, w < 2 ^ 64) {j : Nat}
    (h : findPivot r.offs = some j) :
    r.bit (r.start / 64 * 64 + j) = true ∧
      (∀ p, r.bit p = true → r.start / 64 * 64 + j ≤ p) ∧ j < 64 * r.offs.length := by
  obtain ⟨hjlt, hbit, hbelow⟩ := findPivot_spec hw h
  refine ⟨?_, ?_, hjlt⟩
  · unfold RowT.bit
    rw [rowBit_iff]
    exact ⟨by omega, by rw [Nat.add_sub_cancel_left]; exact hbit⟩
  · intro p hp
    obtain ⟨hp1, hp2⟩ := rowBit_iff.mp hp
    by_contra hlt
    rw [hbelow (p - r.start / 64 * 64) (by omega)] at hp2
    exact Bool.false_ne_true hp2


theorem xor_cancel_right {a b c : Nat} (h : a ^^^ c = b ^^^ c) : a = b := by
  have h2 : a ^^^ c ^^^ c = b ^^^ c ^^^ c := by rw [h]
  rwa [Nat.xor_assoc, Nat.xor_self, Nat.xor_zero, Nat.xor_assoc, Nat.xor_self, Nat.xor_zero]
    at h2

theorem RowT.bit_def {r : RowT} {p : Nat} : r.bit p = rowBit (r.start / 64) r.offs p := rfl

/-! ## The elimination step, packaged for the pivot row `ri` -/

theorem elimLoop_wf {m count : Nat} {ri : RowT} {j : Nat} {L : List RowT}
    (hwfr : RowWf m count ri)
    (hlow : ∀ p, ri.bit p = true → ri.start / 64 * 64 + j ≤ p)
    (hst : ∀ q ∈ L, ri.start ≤ q.start)
    (hsort : List.Pairwise (fun a b : RowT => a.start ≤ b.start) L)
    (hwf : ∀ q ∈ L, RowWf m count q) :
    ∀ q' ∈ elimLoop (ri.start / 64) j ri.offs ri.val L, RowWf m count q' := by
  obtain ⟨hlenr, hwr, hsupr⟩ := hwfr
  have hst64 : ∀ q ∈ L, ri.start / 64 * 64 ≤ q.start := fun q hq => by
    have h1 := hst q hq
    have h2 : ri.start / 64 * 64 ≤ ri.start := by omega
    omega
  intro q' hq'
  obtain ⟨q, hq, hrel⟩ := forall₂_exists_right (elimLoop_forall₂ hst64 hsort) q' hq'
  obtain ⟨hqlen, hqw, hqsup⟩ := hwf q hq
  obtain ⟨hs, hl, hcase⟩ :=
    elimRel_cases hrel (hst64 q hq) (by rw [hlenr, hqlen]) hlow
  rcases hcase with ⟨heq, _⟩ | ⟨hoffs, hbits, hval, hsp, hqbit⟩
  · subst heq
    exact hwf _ hq
  · refine ⟨by rw [hl, hqlen], ?_, ?_⟩
    · rw [hoffs]
      exact xorWords_words_lt hqw
        (fun w hw => hwr w (List.mem_of_mem_drop hw))
    · intro p hp
      rw [hbits p] at hp
      rw [hs]
      cases hbq : q.bit p with
      | true =>
        obtain ⟨h1, h2⟩ := hqsup p hbq
        exact ⟨h1, h2⟩
      | false =>
        rw [hbq] at hp
        simp only [Bool.false_xor] at hp
        obtain ⟨h1, h2⟩ := hsupr p hp
        have h3 := hlow p hp
        exact ⟨by omega, h2⟩

theorem elimLoop_cleared {ri : RowT} {j : Nat} {L : List RowT}
    (hpiv : ri.bit (ri.start / 64 * 64 + j) = true)
    (hlow : ∀ p, ri.bit p = true → ri.start / 64 * 64 + j ≤ p)
    (hlens : ∀ q ∈ L, q.offs.length = ri.offs.length)
    (hsupp : ∀ q ∈ L, ∀ p, q.bit p = true → q.start ≤ p)
    (hst : ∀ q ∈ L, ri.start ≤ q.start)
    (hsort : List.Pairwise (fun a b : RowT => a.start ≤ b.start) L) :
    ∀ q' ∈ elimLoop (ri.start / 64) j ri.offs ri.val L,
      q'.bit (ri.start / 64 * 64 + j) = false := by
  have hst64 : ∀ q ∈ L, ri.start / 64 * 64 ≤ q.start := fun q hq => by
    have h1 := hst q hq
    have h2 : ri.start / 64 * 64 ≤ ri.start := by omega
    omega
  intro q' hq'
  obtain ⟨q, hq, hrel⟩ := forall₂_exists_right (elimLoop_forall₂ hst64 hsort) q' hq'
  obtain ⟨hs, hl, hcase⟩ :=
    elimRel_cases hrel (hst64 q hq) ((hlens q hq).symm) hlow
  rcases hcase with ⟨heq, hwhy⟩ | ⟨hoffs, hbits, hval, hsp, hqbit⟩
  · subst heq
    rcases hwhy with hbrk | hbf
    · by_contra hb
      rw [Bool.not_eq_false] at hb
      exact absurd (hsupp _ hq _ hb) (by omega)
    · exact hbf
  · rw [hbits, hqbit]
    have hpiv' : rowBit (ri.start / 64) ri.offs (ri.start / 64 * 64 + j) = true := hpiv
    rw [hpiv']
    rfl

theorem elimLoop_bit_zero {ri : RowT} {j qq : Nat} {L : List RowT}
    (hri0 : ri.bit qq = false)
    (hlow : ∀ p, ri.bit p = true → ri.start / 64 * 64 + j ≤ p)
    (hlens : ∀ q ∈ L, q.offs.length = ri.offs.length)
    (hzero : ∀ q ∈ L, q.bit qq = false)
    (hst : ∀ q ∈ L, ri.start ≤ q.start)
    (hsort : List.Pairwise (fun a b : RowT => a.start ≤ b.start) L) :
    ∀ q' ∈ elimLoop (ri.start / 64) j ri.offs ri.val L, q'.bit qq = false := by
  have hst64 : ∀ q ∈ L, ri.start / 64 * 64 ≤ q.start := fun q hq => by
    have h1 := hst q hq
    have h2 : ri.start / 64 * 64 ≤ ri.start := by omega
    omega
  intro q' hq'
  obtain ⟨q, hq, hrel⟩ := forall₂_exists_right (elimLoop_forall₂ hst64 hsort) q' hq'
  obtain ⟨hs, hl, hcase⟩ :=
    elimRel_cases hrel (hst64 q hq) ((hlens q hq).symm) hlow
  rcases hcase with ⟨heq, _⟩ | ⟨hoffs, hbits, hval, hsp, hqbit⟩
  · subst heq
    exact hzero _ hq
  · rw [hbits, hzero q hq]
    have hri0' : rowBit (ri.start / 64) ri.offs qq = false := hri0
    rw [hri0']
    rfl

theorem elimLoop_sound {ri : RowT} {j : Nat} {S : List Nat} {L : List RowT}
    (hlow : ∀ p, ri.bit p = true → ri.start / 64 * 64 + j ≤ p)
    (hlens : ∀ q ∈ L, q.offs.length = ri.offs.length)
    (hst : ∀ q ∈ L, ri.start ≤ q.start)
    (hsort : List.Pairwise (fun a b : RowT => a.start ≤ b.start) L)
    (hSri : vDot ri S = ri.val)
    (hS : ∀ q' ∈ elimLoop (ri.start / 64) j ri.offs ri.val L, vDot q' S = q'.val) :
    ∀ q ∈ L, vDot q S = q.val := by
  have hst64 : ∀ q ∈ L, ri.start / 64 * 64 ≤ q.start := fun q hq => by
    have h1 := hst q hq
    have h2 : ri.start / 64 * 64 ≤ ri.start := by omega
    omega
  intro q hq
  obtain ⟨q', hq', hrel⟩ := forall₂_exists_left (elimLoop_forall₂ hst64 hsort) q hq
  obtain ⟨hs, hl, hcase⟩ :=
    elimRel_cases hrel (hst64 q hq) ((hlens q hq).symm) hlow
  rcases hcase with ⟨heq, _⟩ | ⟨hoffs, hbits, hval, hsp, hqbit⟩
  · rw [← heq]
    exact hS q' hq'
  · have hlin : vDot q' S = vDot q S ^^^ vDot ri S := vDot_of_bit_xor hbits
    have hv := hS q' hq'
    rw [hlin, hSri, hval] at hv
    exact xor_cancel_right hv

/-! ## Triangularization -/

theorem triangFuel_succ_cons {f : Nat} {r : RowT} {rest : List RowT} :
    triangFuel (f + 1) (r :: rest)
      = match findPivot r.offs with
        | none => none
        | some j => (triangFuel f (elimLoop (r.start / 64) j r.offs r.val rest)).map (r :: ·) :=
  rfl

/-- Triangularization preserves "bit `qq` is clear in every row". -/
theorem triang_bit_zero {m count qq : Nat} :
    ∀ (f : Nat) (L F : List RowT), L.length = f →
      List.Pairwise (fun a b : RowT => a.start ≤ b.start) L →
      (∀ r ∈ L, RowWf m count r) →
      (∀ r ∈ L, r.bit qq = false) →
      triangFuel f L = some F →
      ∀ r ∈ F, r.bit qq = false := by
  intro f
  induction f with
  | zero =>
    intro L F hf hsort hwf hz htr
    have : some [] = some F := htr
    cases this
    intro r hr
    cases hr
  | succ f ih =>
    intro L F hf hsort hwf hz htr
    cases L with
    | nil =>
      have : some [] = some F := htr
      cases this
      intro r hr
      cases hr
    | cons r rest =>
      rw [triangFuel_succ_cons] at htr
      cases hfp : findPivot r.offs with
      | none => rw [hfp] at htr; cases htr
      | some j =>
        rw [hfp, Option.map_eq_some'] at htr
        obtain ⟨F', hF', rfl⟩ := htr
        obtain ⟨hlenr, hwr, hsupr⟩ := hwf r (List.mem_cons_self r rest)
        obtain ⟨hpiv, hlow, hjlt⟩ := pivot_facts hwr hfp
        have hstge : ∀ q ∈ rest, r.start ≤ q.start :=
          fun q hq => List.rel_of_pairwise_cons hsort hq
        have hwfrest : ∀ q ∈ rest, RowWf m count q :=
          fun q hq => hwf q (List.mem_cons_of_mem _ hq)
        have hlens : ∀ q ∈ rest, q.offs.length = r.offs.length :=
          fun q hq => by rw [(hwfrest q hq).1, hlenr]
        have hwf' := elimLoop_wf ⟨hlenr, hwr, hsupr⟩ hlow hstge hsort.of_cons hwfrest
        have hz' := elimLoop_bit_zero (hz r (List.mem_cons_self r rest)) hlow hlens
          (fun q hq => hz q (List.mem_cons_of_mem _ hq)) hstge hsort.of_cons
        have hsort' := pairwise_start_of_map_eq
          (@elimLoop_map_start (r.start / 64) j r.offs r.val rest).symm hsort.of_cons
        have hlen' : (elimLoop (r.start / 64) j r.offs r.val rest).length = rest.length :=
          elimLoop_length rest
        intro p hp
        rcases List.mem_cons.mp hp with rfl | hp'
        · exact hz p (List.mem_cons_self p rest)
        · exact ih _ F' (by simp at hf; omega) hsort' hwf' hz' hF' p hp'

/-- The main induction over the triangularization loop: on success the
starts are unchanged, the rows stay well-formed, every final row has a
pivot, later rows are clear at earlier rows' pivots, and any `S` solving
the final system solves the input system. -/
theorem triang_main {m count : Nat} :
    ∀ (f : Nat) (L F : List RowT), L.length = f →
      List.Pairwise (fun a b : RowT => a.start ≤ b.start) L →
      (∀ r ∈ L, RowWf m count r) →
      triangFuel f L = some F →
      F.map RowT.start = L.map RowT.start ∧
        (∀ r ∈ F, RowWf m count r) ∧
        (∀ r ∈ F, ∃ j, findPivot r.offs = some j) ∧
        List.Pairwise (fun a b : RowT => b.bit (pivotOf a) = false) F ∧
        (∀ S : List Nat, (∀ r ∈ F, vDot r S = r.val) → ∀ r ∈ L, vDot r S = r.val) := by
  intro f
  induction f with
  | zero =>
    intro L F hf hsort hwf htr
    have hL : L = [] := List.length_eq_zero.mp hf
    subst hL
    have : some [] = some F := htr
    cases this
    exact ⟨rfl, fun r hr => absurd hr (List.not_mem_nil r),
      fun r hr => absurd hr (List.not_mem_nil r), List.Pairwise.nil,
      fun S _ r hr => absurd hr (List.not_mem_nil r)⟩
  | succ f ih =>
    intro L F hf hsort hwf htr
    cases L with
    | nil =>
      have : some [] = some F := htr
      cases this
      exact ⟨rfl, fun r hr => absurd hr (List.not_mem_nil r),
        fun r hr => absurd hr (List.not_mem_nil r), List.Pairwise.nil,
        fun S _ r hr => absurd hr (List.not_mem_nil r)⟩
    | cons r rest =>
      rw [triangFuel_succ_cons] at htr
      cases hfp : findPivot r.offs with
      | none => rw [hfp] at htr; cases htr
      | some j =>
        rw [hfp, Option.map_eq_some'] at htr
        obtain ⟨F', hF', rfl⟩ := htr
        obtain ⟨hlenr, hwr, hsupr⟩ := hwf r (List.mem_cons_self r rest)
        obtain ⟨hpiv, hlow, hjlt⟩ := pivot_facts hwr hfp
        have hstge : ∀ q ∈ rest, r.start ≤ q.start :=
          fun q hq => List.rel_of_pairwise_cons hsort hq
        have hwfrest : ∀ q ∈ rest, RowWf m count q :=
          fun q hq => hwf q (List.mem_cons_of_mem _ hq)
        have hlens : ∀ q ∈ rest, q.offs.length = r.offs.length :=
          fun q hq => by rw [(hwfrest q hq).1, hlenr]
        have hsupps : ∀ q ∈ rest, ∀ p, q.bit p = true → q.start ≤ p :=
          fun q hq p hp => ((hwfrest q hq).2.2 p hp).1
        have hwf' := elimLoop_wf ⟨hlenr, hwr, hsupr⟩ hlow hstge hsort.of_cons hwfrest
        have hsort' := pairwise_start_of_map_eq
          (@elimLoop_map_start (r.start / 64) j r.offs r.val rest).symm hsort.of_cons
        have hlen' : (elimLoop (r.start / 64) j r.offs r.val rest).length = rest.length :=
          elimLoop_length rest
        obtain ⟨ihs, ihwf, ihpiv, ihech, ihsound⟩ :=
          ih _ F' (by simp at hf; omega) hsort' hwf' hF'
        refine ⟨?_, ?_, ?_, ?_, ?_⟩
        · rw [List.map_cons, List.map_cons, ihs, elimLoop_map_start]
        · intro q hq
          rcases List.mem_cons.mp hq with rfl | hq'
          · exact ⟨hlenr, hwr, hsupr⟩
          · exact ihwf q hq'
        · intro q hq
          rcases List.mem_cons.mp hq with rfl | hq'
          · exact ⟨j, hfp⟩
          · exact ihpiv q hq'
        · refine List.Pairwise.cons ?_ ihech
          intro b hb
          have hclear := elimLoop_cleared hpiv hlow hlens hsupps hstge hsort.of_cons
          have hpres := @triang_bit_zero m count (r.start / 64 * 64 + j) f _ F'
            (by rw [hlen']; simp at hf; omega) hsort' hwf' hclear hF'
          rw [pivotOf, findPivotD_eq_of_some hfp]
          exact hpres b hb
        · intro S hSall
          have hSr : vDot r S = r.val := hSall r (List.mem_cons_self r F')
          have hSF' : ∀ q ∈ F', vDot q S = q.val :=
            fun q hq => hSall q (List.mem_cons_of_mem _ hq)
          have hSrest' := ihsound S hSF'
          intro q hq
          rcases List.mem_cons.mp hq with rfl | hq'
          · exact hSr
          · exact elimLoop_sound hlow hlens hstge hsort.of_cons hSr hSrest' q hq'


/-! ## XOR algebra helpers -/

theorem xor_left_comm (a b c : Nat) : a ^^^ (b ^^^ c) = b ^^^ (a ^^^ c) := by
  rw [← Nat.xor_assoc, Nat.xor_comm a b, Nat.xor_assoc]

theorem xor_cancel_left (a b : Nat) : a ^^^ (a ^^^ b) = b := by
  rw [← Nat.xor_assoc, Nat.xor_self, Nat.zero_xor]

/-! ## Back-substitution -/

theorem getD_replicate_zero {m p : Nat} : (List.replicate m 0).getD p 0 = 0 := by
  induction m generalizing p with
  | zero => simp
  | succ m ih =>
    cases p with
    | zero => rw [List.replicate_succ]; rfl
    | succ p => rw [List.replicate_succ, List.getD_cons_succ]; exact @ih p

/-- The value XOR-accumulated by the window loop is the row's value XORed
with the abstract dot product. -/
theorem winDot_eq_vDot {r : RowT} {s : List Nat} :
    winDot s (r.start / 64) r.offs r.val = r.val ^^^ vDot r s := by
  rw [winDot_acc, winDot_eq]
  congr 1
  unfold vDot
  rw [List.range_eq_range']
  by_cases h : r.start / 64 * 64 ≤ s.length
  · have hsp : List.range' 0 s.length
        = List.range' 0 (r.start / 64 * 64) ++
            List.range' (r.start / 64 * 64) (s.length - r.start / 64 * 64) := by
      have happ := List.range'_append_1 0 (r.start / 64 * 64) (s.length - r.start / 64 * 64)
      rw [Nat.zero_add] at happ
      rw [show s.length - r.start / 64 * 64 + r.start / 64 * 64 = s.length by omega] at happ
      exact happ.symm
    rw [hsp, xorSum_append]
    have hz0 : xorSum (fun p => if r.bit p then s.getD p 0 else 0)
        (List.range' 0 (r.start / 64 * 64)) = 0 := by
      apply xorSum_eq_zero
      intro p hp
      obtain ⟨i, hi, rfl⟩ := List.mem_range'.mp hp
      rw [RowT.bit_def, rowBit_lt_start (by omega)]
      simp
    rw [hz0, Nat.zero_xor]
    rfl
  · rw [show s.length - r.start / 64 * 64 = 0 by omega]
    rw [show List.range' (r.start / 64 * 64) 0 = [] from rfl, xorSum_nil]
    rw [xorSum_eq_zero]
    intro p hp
    obtain ⟨i, hi, rfl⟩ := List.mem_range'.mp hp
    rw [RowT.bit_def, rowBit_lt_start (by omega)]
    simp

theorem applyRow_eq {r : RowT} {s : List Nat} :
    applyRow r s = s.set (pivotOf r) (r.val ^^^ vDot r s) := by
  unfold applyRow pivotOf
  rw [winDot_eq_vDot]

theorem backsub_cons {r : RowT} {rest : List RowT} {s : List Nat} :
    backsub (r :: rest) s = applyRow r (backsub rest s) := rfl

theorem backsub_length : ∀ (F : List RowT) (s : List Nat), (backsub F s).length = s.length := by
  intro F
  induction F with
  | nil => intro s; rfl
  | cons r rest ih =>
    intro s
    rw [backsub_cons, applyRow_eq, List.length_set, ih]

/-- Updating one position of `s` changes `vDot` only if the row has that
bit set, in which case the old entry is replaced by the new one. -/
theorem vDot_set {r : RowT} {s : List Nat} {q x : Nat} (hq : q < s.length) :
    vDot r (s.set q x)
      = if r.bit q then vDot r s ^^^ s.getD q 0 ^^^ x else vDot r s := by
  unfold vDot
  rw [List.length_set]
  have hsplit : List.range s.length
      = List.range' 0 q ++ q :: List.range' (q + 1) (s.length - q - 1) := by
    have happ := List.range'_append_1 0 q (s.length - q)
    rw [Nat.zero_add] at happ
    rw [show s.length - q + q = s.length by omega] at happ
    rw [List.range_eq_range', ← happ]
    congr 1
    rw [show s.length - q = (s.length - q - 1) + 1 by omega, List.range'_succ]
    simp
  rw [hsplit, xorSum_append, xorSum_append, xorSum_cons, xorSum_cons]
  have hc1 : xorSum (fun p => if r.bit p then (s.set q x).getD p 0 else 0) (List.range' 0 q)
      = xorSum (fun p => if r.bit p then s.getD p 0 else 0) (List.range' 0 q) := by
    apply xorSum_congr
    intro p hp
    obtain ⟨i, hi, rfl⟩ := List.mem_range'.mp hp
    rw [getD_set_ne (by omega)]
  have hc2 : xorSum (fun p => if r.bit p then (s.set q x).getD p 0 else 0)
        (List.range' (q + 1) (s.length - q - 1))
      = xorSum (fun p => if r.bit p then s.getD p 0 else 0)
        (List.range' (q + 1) (s.length - q - 1)) := by
    apply xorSum_congr
    intro p hp
    obtain ⟨i, hi, rfl⟩ := List.mem_range'.mp hp
    rw [getD_set_ne (by omega)]
  rw [hc1, hc2, getD_set_self hq]
  cases hb : r.bit q with
  | false => simp
  | true =>
    simp only [if_true]
    generalize xorSum (fun p => if r.bit p then s.getD p 0 else 0) (List.range' 0 q) = A
    generalize xorSum (fun p => if r.bit p then s.getD p 0 else 0)
      (List.range' (q + 1) (s.length - q - 1)) = B
    generalize s.getD q 0 = c
    simp [Nat.xor_assoc, Nat.xor_comm, xor_left_comm, Nat.xor_self, Nat.xor_zero,
      Nat.zero_xor, xor_cancel_left]

/-- Back-substitution over well-formed echelon rows produces a vector of
length `m` that is zero off the pivots and solves every row's equation. -/
theorem backsub_main {m count : Nat} :
    ∀ (F : List RowT),
      (∀ r ∈ F, RowWf m count r) →
      (∀ r ∈ F, ∃ j, findPivot r.offs = some j) →
      List.Pairwise (fun a b : RowT => b.bit (pivotOf a) = false) F →
      ((backsub F (List.replicate m 0)).length = m ∧
        (∀ p, p < m → (∀ r ∈ F, pivotOf r ≠ p) →
          (backsub F (List.replicate m 0)).getD p 0 = 0) ∧
        (∀ r ∈ F, vDot r (backsub F (List.replicate m 0)) = r.val)) := by
  intro F
  induction F with
  | nil =>
    intro _ _ _
    refine ⟨by simp [backsub], ?_, ?_⟩
    · intro p _ _
      exact getD_replicate_zero
    · intro r hr
      cases hr
  | cons r rest ih =>
    intro hwf hpiv hech
    obtain ⟨ihlen, ihz, iheq⟩ := ih (fun q hq => hwf q (List.mem_cons_of_mem _ hq))
      (fun q hq => hpiv q (List.mem_cons_of_mem _ hq)) hech.of_cons
    obtain ⟨hlenr, hwr, hsupr⟩ := hwf r (List.mem_cons_self r rest)
    obtain ⟨j, hfp⟩ := hpiv r (List.mem_cons_self r rest)
    obtain ⟨hbitp, hlowp, hjlt⟩ := pivot_facts hwr hfp
    have hpeq : pivotOf r = r.start / 64 * 64 + j := by
      rw [pivotOf, findPivotD_eq_of_some hfp]
    have hpm : pivotOf r < m := by
      rw [hpeq]
      exact (hsupr _ (hpeq ▸ hbitp)).2
    have hplt : pivotOf r < (backsub rest (List.replicate m 0)).length := by
      rw [ihlen]; exact hpm
    have hechhead : ∀ b ∈ rest, b.bit (pivotOf r) = false :=
      fun b hb => List.rel_of_pairwise_cons hech hb
    have hpivne : ∀ q ∈ rest, pivotOf q ≠ pivotOf r := by
      intro q hq
      obtain ⟨jq, hfq⟩ := hpiv q (List.mem_cons_of_mem _ hq)
      obtain ⟨hbq, _, _⟩ := pivot_facts (hwf q (List.mem_cons_of_mem _ hq)).2.1 hfq
      intro hne
      have : q.bit (pivotOf q) = false := by
        rw [pivotOf, findPivotD_eq_of_some hfq] at hne ⊢
        rw [hne]
        exact hechhead q hq
      rw [pivotOf, findPivotD_eq_of_some hfq] at this
      rw [this] at hbq
      exact Bool.false_ne_true hbq
    have hS'p : (backsub rest (List.replicate m 0)).getD (pivotOf r) 0 = 0 :=
      ihz (pivotOf r) hpm (fun q hq => hpivne q hq)
    rw [backsub_cons, applyRow_eq]
    refine ⟨by rw [List.length_set, ihlen], ?_, ?_⟩
    · intro p hp hnone
      rw [getD_set_ne (hnone r (List.mem_cons_self r rest))]
      exact ihz p hp (fun q hq => hnone q (List.mem_cons_of_mem _ hq))
    · intro q hq
      rcases List.mem_cons.mp hq with rfl | hq'
      · rw [vDot_set hplt]
        rw [if_pos (hpeq ▸ hbitp), hS'p]
        generalize vDot q (backsub rest (List.replicate m 0)) = D
        simp [Nat.xor_assoc, Nat.xor_comm, xor_left_comm, Nat.xor_self, Nat.xor_zero,
          Nat.zero_xor, xor_cancel_left]
      · rw [vDot_set hplt, if_neg (by rw [hechhead q hq']; exact Bool.false_ne_true)]
        exact iheq q hq'


/-! ## Well-formedness of the generated rows -/

theorem getD_lt_of_forall {o : List Nat} (h : ∀ w ∈ o, w < 2 ^ 64) (i : Nat) :
    o.getD i 0 < 2 ^ 64 := by
  by_cases hi : i < o.length
  · rw [List.getD_eq_getElem _ _ hi]
    exact h _ (o.getElem_mem hi)
  · rw [List.getD_eq_default _ _ (by omega)]
    norm_num

theorem words_lt_set {o : List Nat} {i x : Nat} (ho : ∀ w ∈ o, w < 2 ^ 64)
    (hx : x < 2 ^ 64) : ∀ w ∈ o.set i x, w < 2 ^ 64 := by
  intro w hw
  rcases List.mem_or_eq_of_mem_set hw with h | h
  · exact ho w h
  · rw [h]; exact hx

theorem maskOffsets_words_lt {width s : Nat} {o : List Nat}
    (hw : ∀ w ∈ o, w < 2 ^ 64) : ∀ w ∈ maskOffsets width s o, w < 2 ^ 64 := by
  simp only [maskOffsets]
  have h1 : ∀ w ∈ o.set 0 ((o.getD 0 0) &&& not64 ((1 <<< (s % 64)) - 1)), w < 2 ^ 64 :=
    words_lt_set hw (lt_of_le_of_lt Nat.and_le_left (getD_lt_of_forall hw 0))
  by_cases hc1 : (s % 64 + width) / 64 < rowCount width
  · rw [if_pos hc1]
    have h2 : ∀ w ∈ (o.set 0 ((o.getD 0 0) &&& not64 ((1 <<< (s % 64)) - 1))).set
        ((s % 64 + width) / 64)
        ((o.set 0 ((o.getD 0 0) &&& not64 ((1 <<< (s % 64)) - 1))).getD
            ((s % 64 + width) / 64) 0 &&& ((1 <<< ((s + width) % 64)) - 1)),
        w < 2 ^ 64 :=
      words_lt_set h1
        (lt_of_le_of_lt Nat.and_le_left (getD_lt_of_forall h1 ((s % 64 + width) / 64)))
    by_cases hc2 : (s % 64 + width) / 64 = rowCount width - 2
    · rw [if_pos hc2]
      exact words_lt_set h2 (by norm_num)
    · rw [if_neg hc2]
      exact h2
  · rw [if_neg hc1]
    by_cases hc2 : (s % 64 + width) / 64 = rowCount width - 2
    · rw [if_pos hc2]
      exact words_lt_set h1 (by norm_num)
    · rw [if_neg hc2]
      exact h1

/-- The full band-support fact for a freshly generated row. -/
theorem row_k_support {m width : Nat} {key : Nat × List Nat} (hwidth : 2 ≤ width)
    (hlen : key.2.length = rowCount width) :
    ∀ p, rowBit ((row_k m width key).1 / 64) (row_k m width key).2 p = true →
      (row_k m width key).1 ≤ p ∧ p < (row_k m width key).1 + width := by
  intro p hp
  obtain ⟨hp1, hp2⟩ := rowBit_iff.mp hp
  unfold row_k at hp2 hp1 ⊢
  rw [maskOffsets_bitAt hwidth hlen] at hp2
  obtain ⟨hraw, hband⟩ := Bool.and_eq_true_iff.mp hp2
  have hband' := of_decide_eq_true hband
  have hs64 : key.1 % (m - width) % 64 = key.1 % (m - width) - key.1 % (m - width) / 64 * 64 := by
    omega
  omega

/-- Every row generated by `encode` is well-formed. -/
theorem encodeRows_wf {m width : Nat} {map : List ((Nat × List Nat) × Nat)}
    (hwidth : 2 ≤ width) (hm : width < m)
    (hlen : ∀ kv ∈ map, (kv.1).2.length = rowCount width)
    (hwords : ∀ kv ∈ map, ∀ w ∈ (kv.1).2, w < 2 ^ 64) :
    ∀ r ∈ encodeRows m width map, RowWf m (rowCount width) r := by
  intro r hr
  obtain ⟨kv, hkv, rfl⟩ := List.mem_map.mp hr
  refine ⟨by rw [row_k_length]; exact hlen kv hkv, ?_, ?_⟩
  · unfold row_k
    exact maskOffsets_words_lt (hwords kv hkv)
  · intro p hp
    have hsupp := row_k_support hwidth (hlen kv hkv) p hp
    have hstart := @row_k_start_lt m width kv.1 hm
    exact ⟨hsupp.1, by omega⟩

/-! ## The sort -/

instance : IsTotal RowT (fun a b => a.start ≤ b.start) :=
  ⟨fun a b => Nat.le_total a.start b.start⟩

instance : IsTrans RowT (fun a b => a.start ≤ b.start) :=
  ⟨fun _ _ _ => Nat.le_trans⟩

theorem sortRows_sorted (rows : List RowT) :
    List.Pairwise (fun a b : RowT => a.start ≤ b.start) (sortRows rows) :=
  List.sorted_insertionSort _ rows

theorem sortRows_perm (rows : List RowT) : (sortRows rows).Perm rows :=
  List.perm_insertionSort _ rows

theorem mem_sortRows {rows : List RowT} {r : RowT} : r ∈ sortRows rows ↔ r ∈ rows :=
  (sortRows_perm rows).mem_iff

theorem sortRows_length {rows : List RowT} : (sortRows rows).length = rows.length :=
  (sortRows_perm rows).length_eq

/-! ## `decode` as an abstract dot product -/

theorem decode_eq_vDot {width : Nat} {okvs : List Nat} {key : Nat × List Nat}
    (h : width < okvs.length) :
    decode width okvs key
      = some (vDot ⟨(row_k okvs.length width key).1,
          (row_k okvs.length width key).2, 0⟩ okvs) := by
  unfold decode
  rw [if_neg (by omega)]
  have h2 := @winDot_eq_vDot
    ⟨(row_k okvs.length width key).1, (row_k okvs.length width key).2, 0⟩ okvs
  simpa using h2

/-! ## `encode` on success -/

/-- What a successful `encode` guarantees: the output has length `m`, and
for every input pair the abstract dot product of its (re-derivable) row with
the output equals its value. -/
theorem encode_ok_spec {ε : ℚ} {width : Nat} {map : List ((Nat × List Nat) × Nat)}
    {S : List Nat} (hwidth : 2 ≤ width)
    (hlen : ∀ kv ∈ map, (kv.1).2.length = rowCount width)
    (hwords : ∀ kv ∈ map, ∀ w ∈ (kv.1).2, w < 2 ^ 64)
    (henc : encode ε width map = Except.ok S) :
    S.length = encode_length map.length ε ∧
      ∀ kv ∈ map,
        vDot ⟨(row_k (encode_length map.length ε) width kv.1).1,
          (row_k (encode_length map.length ε) width kv.1).2, kv.2⟩ S = kv.2 := by
  unfold encode at henc
  by_cases hc : encode_length map.length ε ≤ width
  · rw [if_pos hc] at henc
    cases henc
  · rw [if_neg hc] at henc
    cases htr : triang (sortRows (encodeRows (encode_length map.length ε) width map)) with
    | none => rw [htr] at henc; cases henc
    | some F =>
      rw [htr] at henc
      have hS : S = backsub F (List.replicate (encode_length map.length ε) 0) := by
        cases henc
        rfl
      subst hS
      have hm : width < encode_length map.length ε := by omega
      have hwfrows := encodeRows_wf hwidth hm hlen hwords
      have hwfsorted : ∀ r ∈ sortRows (encodeRows (encode_length map.length ε) width map),
          RowWf (encode_length map.length ε) (rowCount width) r :=
        fun r hr => hwfrows r (mem_sortRows.mp hr)
      have hsorted := sortRows_sorted (encodeRows (encode_length map.length ε) width map)
      obtain ⟨hstarts, hwfF, hpivF, hechF, hsound⟩ :=
        triang_main _ _ F rfl hsorted hwfsorted htr
      obtain ⟨hblen, hbz, hbeq⟩ := backsub_main F hwfF hpivF hechF
      refine ⟨by rw [hblen], ?_⟩
      intro kv hkv
      have hrowmem : (⟨(row_k (encode_length map.length ε) width kv.1).1,
          (row_k (encode_length map.length ε) width kv.1).2, kv.2⟩ : RowT)
          ∈ sortRows (encodeRows (encode_length map.length ε) width map) := by
        rw [mem_sortRows]
        exact List.mem_map.mpr ⟨kv, hkv, rfl⟩
      exact hsound _ hbeq _ hrowmem


/-! ## Value-independence of the elimination -/

theorem elimLoop_eraseVal_congr {iid j : Nat} {oi : List Nat} {vi vi' : Nat} :
    ∀ {L L' : List RowT}, L.map eraseVal = L'.map eraseVal →
      (elimLoop iid j oi vi L).map eraseVal = (elimLoop iid j oi vi' L').map eraseVal := by
  intro L
  induction L with
  | nil =>
    intro L' h
    cases L' with
    | nil => rfl
    | cons r' rest' => simp at h
  | cons r rest ih =>
    intro L' h
    cases L' with
    | nil => simp at h
    | cons r' rest' =>
      simp only [List.map_cons, List.cons.injEq] at h
      obtain ⟨hh, ht⟩ := h
      have hstart : r.start = r'.start := congrArg Prod.fst hh
      have hoffs : r.offs = r'.offs := congrArg Prod.snd hh
      rw [elimLoop_cons, elimLoop_cons]
      by_cases h1 : iid * 64 + j < r.start
      · rw [if_pos h1, if_pos (hstart ▸ h1)]
        simp only [List.map_cons, ht]
        rw [show eraseVal r = eraseVal r' from hh]
      · have h1' : ¬ iid * 64 + j < r'.start := by rw [← hstart]; exact h1
        rw [if_neg h1, if_neg h1']
        by_cases h2 : (r.offs.getD (j / 64 - (r.start / 64 - iid)) 0 >>> (j % 64)) &&& 1 ≠ 0
        · have h2' : (r'.offs.getD (j / 64 - (r'.start / 64 - iid)) 0 >>> (j % 64)) &&& 1 ≠ 0 := by
            rw [← hstart, ← hoffs]
            exact h2
          rw [if_pos h2, if_pos h2']
          simp only [List.map_cons]
          rw [ih ht]
          congr 1
          simp [eraseVal, hstart, hoffs]
        · have h2' : ¬ (r'.offs.getD (j / 64 - (r'.start / 64 - iid)) 0 >>> (j % 64)) &&& 1 ≠ 0 := by
            rw [← hstart, ← hoffs]
            exact h2
          rw [if_neg h2, if_neg h2']
          simp only [List.map_cons]
          rw [ih ht]
          congr 1

/-- Whether triangularization fails does not depend on the values carried by
the rows, only on their starts and packed words. -/
theorem triang_none_congr : ∀ (f : Nat) {L L' : List RowT}, L.length = f →
    L.map eraseVal = L'.map eraseVal →
    (triangFuel f L = none ↔ triangFuel f L' = none) := by
  intro f
  induction f with
  | zero =>
    intro L L' _ _
    simp [triangFuel]
  | succ f ih =>
    intro L L' hf h
    cases L with
    | nil =>
      cases L' with
      | nil => simp
      | cons r' rest' => simp at h
    | cons r rest =>
      cases L' with
      | nil => simp at h
      | cons r' rest' =>
        simp only [List.map_cons, List.cons.injEq] at h
        obtain ⟨hh, ht⟩ := h
        have hstart : r.start = r'.start := congrArg Prod.fst hh
        have hoffs : r.offs = r'.offs := congrArg Prod.snd hh
        rw [triangFuel_succ_cons, triangFuel_succ_cons]
        cases hfp : findPivot r.offs with
        | none =>
          have hfp' : findPivot r'.offs = none := by rw [← hoffs]; exact hfp
          simp [hfp, hfp']
        | some j =>
          have hfp' : findPivot r'.offs = some j := by rw [← hoffs]; exact hfp
          simp only [hfp, hfp']
          rw [Option.map_eq_none', Option.map_eq_none']
          rw [show r'.start = r.start from hstart.symm, show r'.offs = r.offs from hoffs.symm]
          apply ih
          · rw [elimLoop_length]
            simp at hf
            omega
          · exact elimLoop_eraseVal_congr ht

theorem hitsZeroFuel_succ_cons {f : Nat} {r : RowT} {rest : List RowT} :
    hitsZeroFuel (f + 1) (r :: rest)
      = ((∀ w ∈ r.offs, w = 0) ∨
          ∃ j, findPivot r.offs = some j ∧
            hitsZeroFuel f (elimLoop (r.start / 64) j r.offs r.val rest)) := rfl

/-- Triangularization fails exactly when a visited row has all of its
packed words zero. -/
theorem triang_none_iff_hitsZero : ∀ (f : Nat) (L : List RowT),
    (triangFuel f L = none ↔ hitsZeroFuel f L) := by
  intro f
  induction f with
  | zero =>
    intro L
    simp [triangFuel, hitsZeroFuel]
  | succ f ih =>
    intro L
    cases L with
    | nil =>
      simp [triangFuel, hitsZeroFuel]
    | cons r rest =>
      rw [triangFuel_succ_cons, hitsZeroFuel_succ_cons]
      cases hfp : findPivot r.offs with
      | none =>
        simp only [hfp]
        constructor
        · intro _
          exact Or.inl (findPivot_none_iff.mp hfp)
        · intro _
          trivial
      | some j =>
        simp only [hfp]
        rw [Option.map_eq_none']
        constructor
        · intro hx
          exact Or.inr ⟨j, rfl, (ih _).mp hx⟩
        · intro hx
          rcases hx with hz | ⟨j', hj', hh⟩
          · rw [findPivot_none_iff.mpr hz] at hfp
            cases hfp
          · cases hj'
            exact (ih _).mpr hh

/-! ## Stability and value-independence of the sort -/

theorem orderedInsert_eraseVal_congr {a a' : RowT} (hh : eraseVal a = eraseVal a') :
    ∀ {l l' : List RowT}, l.map eraseVal = l'.map eraseVal →
      (List.orderedInsert (fun x y : RowT => x.start ≤ y.start) a l).map eraseVal
        = (List.orderedInsert (fun x y : RowT => x.start ≤ y.start) a' l').map eraseVal := by
  have hstart : a.start = a'.start := congrArg Prod.fst hh
  intro l
  induction l with
  | nil =>
    intro l' h
    cases l' with
    | nil => simp [List.orderedInsert, hh]
    | cons b' rest' => simp at h
  | cons b rest ih =>
    intro l' h
    cases l' with
    | nil => simp at h
    | cons b' rest' =>
      simp only [List.map_cons, List.cons.injEq] at h
      obtain ⟨hb, ht⟩ := h
      have hbstart : b.start = b'.start := congrArg Prod.fst hb
      rw [List.orderedInsert, List.orderedInsert]
      by_cases hab : a.start ≤ b.start
      · rw [if_pos hab, if_pos (by rw [← hstart, ← hbstart]; exact hab)]
        simp only [List.map_cons, ht]
        rw [show eraseVal a = eraseVal a' from hh, show eraseVal b = eraseVal b' from hb]
      · rw [if_neg hab, if_neg (by rw [← hstart, ← hbstart]; exact hab)]
        simp only [List.map_cons, ih ht]
        rw [show eraseVal b = eraseVal b' from hb]

theorem sortRows_eraseVal_congr : ∀ {L L' : List RowT},
    L.map eraseVal = L'.map eraseVal →
    (sortRows L).map eraseVal = (sortRows L').map eraseVal := by
  intro L
  induction L with
  | nil =>
    intro L' h
    cases L' with
    | nil => rfl
    | cons r' rest' => simp at h
  | cons r rest ih =>
    intro L' h
    cases L' with
    | nil => simp at h
    | cons r' rest' =>
      simp only [List.map_cons, List.cons.injEq] at h
      obtain ⟨hh, ht⟩ := h
      unfold sortRows List.insertionSort
      exact orderedInsert_eraseVal_congr hh (ih ht)

/-- The insertion sort is stable: filtering the sorted list at any fixed
start index returns those rows in their input order. -/
theorem filter_orderedInsert {c : Nat} {a : RowT} : ∀ l : List RowT,
    (List.orderedInsert (fun x y : RowT => x.start ≤ y.start) a l).filter
        (fun r => r.start == c)
      = if a.start = c then a :: l.filter (fun r => r.start == c)
        else l.filter (fun r => r.start == c) := by
  intro l
  induction l with
  | nil =>
    by_cases hac : a.start = c <;>
      simp [List.orderedInsert, List.filter_cons, beq_iff_eq, hac]
  | cons b l ih =>
    rw [List.orderedInsert]
    by_cases hab : a.start ≤ b.start
    · rw [if_pos hab]
      by_cases hac : a.start = c <;> simp [List.filter_cons, beq_iff_eq, hac]
    · rw [if_neg hab]
      by_cases hbc : b.start = c
      · have hac : ¬ a.start = c := by omega
        simp [List.filter_cons, beq_iff_eq, hbc, hac, ih]
      · simp [List.filter_cons, beq_iff_eq, hbc, ih]

theorem sortRows_stable {c : Nat} : ∀ rows : List RowT,
    (sortRows rows).filter (fun r => r.start == c)
      = rows.filter (fun r => r.start == c) := by
  intro rows
  induction rows with
  | nil => rfl
  | cons r rest ih =>
    unfold sortRows List.insertionSort
    rw [filter_orderedInsert]
    by_cases hrc : r.start = c
    · rw [if_pos hrc]
      unfold sortRows at ih
      rw [ih, List.filter_cons]
      simp [beq_iff_eq, hrc]
    · rw [if_neg hrc]
      unfold sortRows at ih
      rw [ih, List.filter_cons]
      simp [beq_iff_eq, hrc]


/-! ## Evaluation helpers for concrete parameters -/

deriving instance DecidableEq for Except

theorem encode_length_2_1 : encode_length 2 1 = 4 := by
  unfold encode_length
  rw [show ((2 : ℕ) : ℚ) * (1 + 1) = ((4 : ℕ) : ℚ) by norm_num, Int.ceil_natCast,
    Int.toNat_natCast]

theorem encode_length_4_0 : encode_length 4 0 = 4 := by
  unfold encode_length
  rw [show ((4 : ℕ) : ℚ) * (1 + 0) = ((4 : ℕ) : ℚ) by norm_num, Int.ceil_natCast,
    Int.toNat_natCast]

/-! ## Claims -/

/-- C10: `decode` has an unstated precondition `okvs.len() > width`: when
`okvs.len() = width`, `row_k` reduces the start index modulo
`m - width = 0`, a remainder by zero, so `decode` panics (modelled as
`none`). -/
theorem C10_decode_panics_on_width_length (width : Nat) (okvs : List Nat)
    (key : Nat × List Nat) (h : okvs.length = width) :
    decode width okvs key = none := by
  unfold decode
  rw [if_pos (by omega)]

theorem C10_witness :
    ([1, 2] : List Nat).length = 2 ∧ decode 2 [1, 2] (0, [3, 0]) = none :=
  ⟨by decide, C10_decode_panics_on_width_length 2 [1, 2] (0, [3, 0]) (by decide)⟩

/-- C8: the assertion `last ≥ count - 2` in `row_k` always holds, and when
`last = count` the skipped final-word mask is safe because
`count * 64 ≥ start_index mod 64 + width`. -/
theorem C8_assert_holds {m width : Nat} (key : Nat × List Nat)
    (hwidth : 2 ≤ width) (hm : width < m) :
    rowCount width - 2 ≤ ((row_k m width key).1 % 64 + width) / 64 ∧
      (((row_k m width key).1 % 64 + width) / 64 = rowCount width →
        (row_k m width key).1 % 64 + width ≤ rowCount width * 64) := by
  have h := rowCount_arith width ((row_k m width key).1 % 64) hwidth
    (Nat.mod_lt _ (by omega))
  exact ⟨h.1, fun _ => by omega⟩

theorem C8_witness :
    (2 : Nat) ≤ 87 ∧ (87 : Nat) < 1035 ∧
      (rowCount 87 - 2 ≤ ((row_k 1035 87 (123456, [0, 0, 0])).1 % 64 + 87) / 64 ∧
        (((row_k 1035 87 (123456, [0, 0, 0])).1 % 64 + 87) / 64 = rowCount 87 →
          (row_k 1035 87 (123456, [0, 0, 0])).1 % 64 + 87 ≤ rowCount 87 * 64)) :=
  ⟨by decide, by decide, C8_assert_holds (123456, [0, 0, 0]) (by decide) (by decide)⟩

/-- C5: on success, the vector returned by `encode` has length exactly
`ceil(n * (1 + epsilon))`. -/
theorem C5_encode_length {ε : ℚ} {width : Nat} {map : List ((Nat × List Nat) × Nat)}
    {S : List Nat} (henc : encode ε width map = Except.ok S) :
    S.length = encode_length map.length ε := by
  unfold encode at henc
  by_cases hc : encode_length map.length ε ≤ width
  · rw [if_pos hc] at henc
    cases henc
  · rw [if_neg hc] at henc
    cases htr : triang (sortRows (encodeRows (encode_length map.length ε) width map)) with
    | none => rw [htr] at henc; cases henc
    | some F =>
      rw [htr] at henc
      cases henc
      rw [backsub_length, List.length_replicate]

theorem C5_witness :
    encode 1 2 [((0, [3, 0]), 5), ((1, [6, 0]), 9)] = Except.ok [12, 9, 0, 0] ∧
      ([12, 9, 0, 0] : List Nat).length
        = encode_length [((0, [3, 0]), 5), ((1, [6, 0]), 9)].length 1 := by
  have henc : encode 1 2 [((0, [3, 0]), 5), ((1, [6, 0]), 9)] = Except.ok [12, 9, 0, 0] := by
    simp only [encode]
    rw [show encode_length [((0, [3, 0]), 5), ((1, [6, 0]), 9)].length 1 = 4 from
      encode_length_2_1]
    decide
  exact ⟨henc, C5_encode_length henc⟩

theorem getD_take {l : List Nat} {n i : Nat} (h : i < n) :
    (l.take n).getD i 0 = l.getD i 0 := by
  induction l generalizing n i with
  | nil => simp
  | cons a l ih =>
    cases n with
    | zero => omega
    | succ n =>
      cases i with
      | zero => simp
      | succ i => simpa using ih (by omega)

/-- C4: the bit-dot kernel equals the XOR-sum of `b[i] * bit i of a` over
`i < min 64 b.length` (so bits of `a` at indices `≥ b.length` contribute
zero), and the unrolled branch agrees with the short loop restricted to 64
elements. -/
theorem C4_dot_u64_generic (a : Nat) (b : List Nat) :
    dot_u64_generic a b
      = (List.range (min 64 b.length)).foldr
          (fun i acc => b.getD i 0 * ((a >>> i) &&& 1) ^^^ acc) 0 ∧
      (64 ≤ b.length → dotUnrolled a b = dotShort a (b.take 64)) := by
  constructor
  · rw [dot_u64_generic_spec]
    exact xorSum_congr (fun p _ => mul_bit_eq.symm)
  · intro h
    rw [dotUnrolled_eq_foldl]
    unfold dotShort
    rw [List.length_take, show min 64 b.length = 64 by omega]
    rw [foldl_xor_eq, foldl_xor_eq]
    congr 1
    apply xorSum_congr
    intro p hp
    rw [getD_take (List.mem_range.mp hp)]

/-- C3: every set bit of a generated row, read at absolute positions from
`64 * (start / 64)`, lies in `[start, start + width)`, and every offsets
word lying entirely beyond the band is zero. -/
theorem C3_row_band_support {m width : Nat} (key : Nat × List Nat)
    (hwidth : 2 ≤ width) (hm : width < m)
    (hlen : key.2.length = rowCount width) (hwords : ∀ w ∈ key.2, w < 2 ^ 64) :
    (∀ p, rowBit ((row_k m width key).1 / 64) (row_k m width key).2 p = true →
        (row_k m width key).1 ≤ p ∧ p < (row_k m width key).1 + width) ∧
      (∀ w, (row_k m width key).1 + width ≤ ((row_k m width key).1 / 64 + w) * 64 →
        (row_k m width key).2.getD w 0 = 0) := by
  refine ⟨row_k_support hwidth hlen, ?_⟩
  intro w hw
  have hwlt : ∀ u ∈ (row_k m width key).2, u < 2 ^ 64 := by
    unfold row_k
    exact maskOffsets_words_lt hwords
  apply Nat.eq_of_testBit_eq
  intro t
  rw [Nat.zero_testBit]
  by_cases ht : t < 64
  · have hbit : ((row_k m width key).2.getD w 0).testBit t
        = bitAt (row_k m width key).2 (64 * w + t) := by
      unfold bitAt
      rw [show (64 * w + t) / 64 = w by omega, show (64 * w + t) % 64 = t by omega]
    rw [hbit]
    unfold row_k at hw ⊢
    rw [maskOffsets_bitAt hwidth hlen]
    have hs64 : key.1 % (m - width) % 64
        = key.1 % (m - width) - key.1 % (m - width) / 64 * 64 := by omega
    have hband : ¬ (key.1 % (m - width) % 64 ≤ 64 * w + t ∧
        64 * w + t < key.1 % (m - width) % 64 + width) := by
      omega
    simp [hband]
  · exact Nat.testBit_lt_two_pow
      (lt_of_lt_of_le (getD_lt_of_forall hwlt w)
        (Nat.pow_le_pow_right (by omega) (by omega)))

theorem C3_witness :
    (2 : Nat) ≤ 2 ∧ (2 : Nat) < 4 ∧ ([3, 0] : List Nat).length = rowCount 2 ∧
      ((∀ p, rowBit ((row_k 4 2 (1, [6, 0])).1 / 64) (row_k 4 2 (1, [6, 0])).2 p = true →
          (row_k 4 2 (1, [6, 0])).1 ≤ p ∧ p < (row_k 4 2 (1, [6, 0])).1 + 2) ∧
        (∀ w, (row_k 4 2 (1, [6, 0])).1 + 2 ≤ ((row_k 4 2 (1, [6, 0])).1 / 64 + w) * 64 →
          (row_k 4 2 (1, [6, 0])).2.getD w 0 = 0)) :=
  ⟨by decide, by decide, by decide,
    C3_row_band_support (1, [6, 0]) (by decide) (by decide) (by decide) (by decide)⟩


/-- C7 fails as stated: a row produced by `row_k` need not have exactly
`width` set bits — the hash words select an arbitrary subset of the band.
At the hash output `(0, [0, 0])` with `width = 2`, `m = 4`, the masked row
has 0 set bits, not 2. -/
theorem C7_counterexample :
    ¬ rowSetBits (row_k 4 2 (0, [0, 0])).2 = 2 := by decide

/-- C7 (amended): the masked row agrees with the raw hash bits exactly on
the `width` positions of the band `[start mod 64, start mod 64 + width)`
(relative to word 0) and is zero elsewhere; consequently it has at most
`width` set bits. -/
theorem C7_row_band_population {m width : Nat} (key : Nat × List Nat)
    (hwidth : 2 ≤ width) (hm : width < m) (hlen : key.2.length = rowCount width) :
    (∀ t, bitAt (row_k m width key).2 t
        = (bitAt key.2 t &&
            decide ((row_k m width key).1 % 64 ≤ t ∧
              t < (row_k m width key).1 % 64 + width))) ∧
      rowSetBits (row_k m width key).2 ≤ width := by
  have hchar : ∀ t, bitAt (row_k m width key).2 t
      = (bitAt key.2 t && decide ((row_k m width key).1 % 64 ≤ t ∧
          t < (row_k m width key).1 % 64 + width)) :=
    fun t => @maskOffsets_bitAt width (key.1 % (m - width)) key.2 hwidth hlen t
  refine ⟨fun t => hchar t, ?_⟩
  unfold rowSetBits
  have hsub : (Finset.range (64 * (row_k m width key).2.length)).filter
        (fun t => bitAt (row_k m width key).2 t = true)
      ⊆ Finset.Ico ((row_k m width key).1 % 64) ((row_k m width key).1 % 64 + width) := by
    intro t ht
    obtain ⟨_, htb⟩ := Finset.mem_filter.mp ht
    have h2 := hchar t
    rw [htb] at h2
    obtain ⟨_, hband⟩ := Bool.and_eq_true_iff.mp h2.symm
    rw [Finset.mem_Ico]
    exact of_decide_eq_true hband
  calc ((Finset.range (64 * (row_k m width key).2.length)).filter
        (fun t => bitAt (row_k m width key).2 t = true)).card
      ≤ (Finset.Ico ((row_k m width key).1 % 64)
          ((row_k m width key).1 % 64 + width)).card := Finset.card_le_card hsub
    _ = width := by rw [Nat.card_Ico]; omega

theorem C7_witness :
    (2 : Nat) ≤ 2 ∧ (2 : Nat) < 4 ∧ ([6, 0] : List Nat).length = rowCount 2 ∧
      ((∀ t, bitAt (row_k 4 2 (1, [6, 0])).2 t
          = (bitAt (1, ([6, 0] : List Nat)).2 t &&
              decide ((row_k 4 2 (1, [6, 0])).1 % 64 ≤ t ∧
                t < (row_k 4 2 (1, [6, 0])).1 % 64 + 2))) ∧
        rowSetBits (row_k 4 2 (1, [6, 0])).2 ≤ 2) :=
  ⟨by decide, by decide, by decide,
    C7_row_band_population (1, [6, 0]) (by decide) (by decide) (by decide)⟩

/-- C6: encoding and decoding are deterministic — the model is a pure
function of `(keys, values, ε, width)` — and the tie-breaking of the sort
is deterministic on input order: filtering the sorted rows at any fixed
start index returns exactly the equal-start rows in input order (the
stability of the stable sort `sort_by`). -/
theorem C6_deterministic (ε : ℚ) (width : Nat)
    (map map' : List ((Nat × List Nat) × Nat)) (S S' : List Nat)
    (key key' : Nat × List Nat) :
    (map = map' → encode ε width map = encode ε width map') ∧
      (S = S' → key = key' → decode width S key = decode width S' key') ∧
      (∀ (rows : List RowT) (c : Nat),
        (sortRows rows).filter (fun r => r.start == c)
          = rows.filter (fun r => r.start == c)) :=
  ⟨fun h => by rw [h], fun h1 h2 => by rw [h1, h2], fun rows _ => sortRows_stable rows⟩

theorem C6_witness :
    encode 1 2 [((0, [3, 0]), 5)] = encode 1 2 [((0, [3, 0]), 5)] ∧
      decode 2 [1, 2, 3] (0, [3, 0]) = decode 2 [1, 2, 3] (0, [3, 0]) ∧
      (sortRows [⟨1, [6, 0], 9⟩, ⟨1, [3, 0], 5⟩]).filter (fun r => r.start == 1)
        = [⟨1, [6, 0], 9⟩, ⟨1, [3, 0], 5⟩].filter (fun r => r.start == 1) := by
  obtain ⟨h1, h2, h3⟩ :=
    C6_deterministic 1 2 [((0, [3, 0]), 5)] [((0, [3, 0]), 5)] [1, 2, 3] [1, 2, 3]
      (0, [3, 0]) (0, [3, 0])
  exact ⟨h1 rfl, h2 rfl rfl, h3 [⟨1, [6, 0], 9⟩, ⟨1, [3, 0], 5⟩] 1⟩


/-- C1: for every `(ε, width)` with `width ≥ 2` on which encoding succeeds
(no singular failure, and `m = ceil(n(1+ε)) > width` enforced by the
assertion), and every input list with pairwise-distinct keys, decoding the
encoder's output at an input key returns that key's value. -/
theorem C1_encode_decode {ε : ℚ} {width : Nat}
    {map : List ((Nat × List Nat) × Nat)} {S : List Nat}
    (hwidth : 2 ≤ width)
    (hlen : ∀ kv ∈ map, (kv.1).2.length = rowCount width)
    (hwords : ∀ kv ∈ map, ∀ w ∈ (kv.1).2, w < 2 ^ 64)
    (hdistinct : (map.map Prod.fst).Pairwise (· ≠ ·))
    (henc : encode ε width map = Except.ok S) :
    ∀ kv ∈ map, decode width S kv.1 = some kv.2 := by
  obtain ⟨hSlen, heqs⟩ := encode_ok_spec hwidth hlen hwords henc
  have hm : width < encode_length map.length ε := by
    by_contra hc
    unfold encode at henc
    rw [if_pos (by omega)] at henc
    cases henc
  intro kv hkv
  rw [decode_eq_vDot (by rw [hSlen]; exact hm)]
  rw [hSlen]
  exact congrArg some (heqs kv hkv)

theorem C1_witness :
    encode 1 2 [((0, [3, 0]), 5), ((1, [6, 0]), 9)] = Except.ok [12, 9, 0, 0] ∧
      decode 2 [12, 9, 0, 0] (0, [3, 0]) = some 5 := by
  have henc : encode 1 2 [((0, [3, 0]), 5), ((1, [6, 0]), 9)] = Except.ok [12, 9, 0, 0] := by
    simp only [encode]
    rw [show encode_length [((0, [3, 0]), 5), ((1, [6, 0]), 9)].length 1 = 4 from
      encode_length_2_1]
    decide
  refine ⟨henc, ?_⟩
  exact C1_encode_decode (by decide) (by decide) (by decide) (by decide) henc
    ((0, [3, 0]), 5) (by decide)

/-- C9: with `m > width` and `width ≥ 2`, every set bit of every row stays
in `[0, m)` through triangularization (initial rows and final rows alike),
and every back-substitution write position — the pivot
`64 * (start/64) + j` — is `< m`: `encode` never indexes out of range. -/
theorem C9_elimination_inbounds {m width : Nat} {map : List ((Nat × List Nat) × Nat)}
    {F : List RowT} (hwidth : 2 ≤ width) (hm : width < m)
    (hlen : ∀ kv ∈ map, (kv.1).2.length = rowCount width)
    (hwords : ∀ kv ∈ map, ∀ w ∈ (kv.1).2, w < 2 ^ 64)
    (htr : triang (sortRows (encodeRows m width map)) = some F) :
    (∀ r ∈ sortRows (encodeRows m width map), ∀ p, r.bit p = true → p < m) ∧
      (∀ r ∈ F, ∀ p, r.bit p = true → p < m) ∧ (∀ r ∈ F, pivotOf r < m) := by
  have hwfrows := encodeRows_wf hwidth hm hlen hwords
  have hwfsorted : ∀ r ∈ sortRows (encodeRows m width map), RowWf m (rowCount width) r :=
    fun r hr => hwfrows r (mem_sortRows.mp hr)
  obtain ⟨_, hwfF, hpivF, _, _⟩ :=
    triang_main _ _ F rfl (sortRows_sorted _) hwfsorted htr
  refine ⟨fun r hr p hp => ((hwfsorted r hr).2.2 p hp).2,
    fun r hr p hp => ((hwfF r hr).2.2 p hp).2, ?_⟩
  intro r hr
  obtain ⟨j, hfp⟩ := hpivF r hr
  obtain ⟨hbit, _, _⟩ := pivot_facts (hwfF r hr).2.1 hfp
  have hpeq : pivotOf r = r.start / 64 * 64 + j := by
    rw [pivotOf, findPivotD_eq_of_some hfp]
  exact ((hwfF r hr).2.2 _ (hpeq ▸ hbit)).2

theorem C9_witness :
    triang (sortRows (encodeRows 4 2 [((0, [3, 0]), 5), ((1, [6, 0]), 9)]))
        = some [⟨0, [3, 0], 5⟩, ⟨1, [6, 0], 9⟩] ∧
      ((∀ r ∈ sortRows (encodeRows 4 2 [((0, [3, 0]), 5), ((1, [6, 0]), 9)]),
          ∀ p, r.bit p = true → p < 4) ∧
        (∀ r ∈ [(⟨0, [3, 0], 5⟩ : RowT), ⟨1, [6, 0], 9⟩], ∀ p, r.bit p = true → p < 4) ∧
        (∀ r ∈ [(⟨0, [3, 0], 5⟩ : RowT), ⟨1, [6, 0], 9⟩], pivotOf r < 4)) := by
  have htr : triang (sortRows (encodeRows 4 2 [((0, [3, 0]), 5), ((1, [6, 0]), 9)]))
      = some [⟨0, [3, 0], 5⟩, ⟨1, [6, 0], 9⟩] := by rfl
  exact ⟨htr, C9_elimination_inbounds (by decide) (by decide) (by decide) (by decide) htr⟩


/-- The value component plays no role in row generation: erasing values
from the generated rows leaves a function of the key list alone. -/
theorem encodeRows_eraseVal {m width : Nat} {map : List ((Nat × List Nat) × Nat)} :
    (encodeRows m width map).map eraseVal
      = (map.map Prod.fst).map (fun key => ((row_k m width key).1, (row_k m width key).2)) := by
  unfold encodeRows eraseVal
  rw [List.map_map, List.map_map]
  rfl

/-- C2: `encode` returns `Except.error "Matrix is singular"` exactly when
the assertion `m > width` passes and, during triangularization, the row
being visited has all of its packed offsets words zero (`hitsZeroRow` on
the sorted rows); the all-zero test is exactly the pivot scan of lines
138-148 finding no nonzero word; and any input map containing two pairs
with equal keys (with `m > width`) makes `encode` fail this way. -/
theorem C2_singular {ε : ℚ} {width : Nat} {map : List ((Nat × List Nat) × Nat)}
    (hwidth : 2 ≤ width)
    (hlen : ∀ kv ∈ map, (kv.1).2.length = rowCount width)
    (hwords : ∀ kv ∈ map, ∀ w ∈ (kv.1).2, w < 2 ^ 64) :
    (encode ε width map = Except.error "Matrix is singular"
        ↔ width < encode_length map.length ε ∧
          hitsZeroRow (sortRows (encodeRows (encode_length map.length ε) width map))) ∧
      (∀ o : List Nat, findPivot o = none ↔ ∀ w ∈ o, w = 0) ∧
      (width < encode_length map.length ε →
        (∃ (l1 l2 l3 : List ((Nat × List Nat) × Nat)) (k : Nat × List Nat) (v1 v2 : Nat),
            map = l1 ++ (k, v1) :: l2 ++ (k, v2) :: l3) →
        encode ε width map = Except.error "Matrix is singular") := by
  refine ⟨?_, fun o => findPivot_none_iff, ?_⟩
  · constructor
    · intro he
      unfold encode at he
      by_cases hc : encode_length map.length ε ≤ width
      · rw [if_pos hc] at he
        injection he with h
        exact absurd h (by decide)
      · rw [if_neg hc] at he
        cases htr : triang (sortRows (encodeRows (encode_length map.length ε) width map)) with
        | none =>
          exact ⟨by omega, (triang_none_iff_hitsZero _ _).mp htr⟩
        | some F =>
          rw [htr] at he
          cases he
    · intro ⟨hm, hz⟩
      unfold encode
      rw [if_neg (by omega)]
      cases htr : triang (sortRows (encodeRows (encode_length map.length ε) width map)) with
      | none => rfl
      | some F =>
        have hnone :=
          (triang_none_iff_hitsZero
            (sortRows (encodeRows (encode_length map.length ε) width map)).length
            (sortRows (encodeRows (encode_length map.length ε) width map))).mpr hz
        have htr' : triangFuel
            (sortRows (encodeRows (encode_length map.length ε) width map)).length
            (sortRows (encodeRows (encode_length map.length ε) width map)) = some F := htr
        rw [htr'] at hnone
        cases hnone
  · intro hm ⟨l1, l2, l3, k, v1, v2, hmap⟩
    by_contra hne
    cases htr : triang (sortRows (encodeRows (encode_length map.length ε) width map)) with
    | none =>
      apply hne
      unfold encode
      rw [if_neg (by omega), htr]
    | some F =>
      have hkeys : map.map Prod.fst = (l1 ++ (k, 0) :: l2 ++ (k, 1) :: l3).map Prod.fst := by
        rw [hmap]; simp
      have hlen_eq : map.length = (l1 ++ (k, 0) :: l2 ++ (k, 1) :: l3).length := by
        rw [hmap]; simp
      have hrows_congr : (encodeRows (encode_length map.length ε) width map).map eraseVal
          = (encodeRows (encode_length map.length ε) width
              (l1 ++ (k, 0) :: l2 ++ (k, 1) :: l3)).map eraseVal := by
        rw [encodeRows_eraseVal, encodeRows_eraseVal, hkeys]
      have hsort_congr := sortRows_eraseVal_congr hrows_congr
      have hslen : (sortRows (encodeRows (encode_length map.length ε) width map)).length
          = (sortRows (encodeRows (encode_length map.length ε) width
              (l1 ++ (k, 0) :: l2 ++ (k, 1) :: l3))).length := by
        have hc := congrArg List.length hsort_congr
        simpa using hc
      have hnone_iff := triang_none_congr
        (sortRows (encodeRows (encode_length map.length ε) width map)).length
        rfl hsort_congr
      cases htr2 : triang (sortRows (encodeRows (encode_length map.length ε) width
          (l1 ++ (k, 0) :: l2 ++ (k, 1) :: l3))) with
      | none =>
        have h1 : triangFuel
            (sortRows (encodeRows (encode_length map.length ε) width map)).length
            (sortRows (encodeRows (encode_length map.length ε) width
              (l1 ++ (k, 0) :: l2 ++ (k, 1) :: l3))) = none := by
          rw [hslen]; exact htr2
        have h2 := hnone_iff.mpr h1
        have htr' : triangFuel
            (sortRows (encodeRows (encode_length map.length ε) width map)).length
            (sortRows (encodeRows (encode_length map.length ε) width map)) = some F := htr
        rw [htr'] at h2
        cases h2
      | some F2 =>
        have hm' : encode_length (l1 ++ (k, 0) :: l2 ++ (k, 1) :: l3).length ε
            = encode_length map.length ε := by rw [← hlen_eq]
        have henc2 : encode ε width (l1 ++ (k, 0) :: l2 ++ (k, 1) :: l3)
            = Except.ok (backsub F2 (List.replicate (encode_length map.length ε) 0)) := by
          unfold encode
          rw [hm', if_neg (by omega), htr2]
        have hlen2 : ∀ kv ∈ l1 ++ (k, 0) :: l2 ++ (k, 1) :: l3,
            (kv.1).2.length = rowCount width := by
          intro kv hkv
          have hk1 : kv.1 ∈ (l1 ++ (k, 0) :: l2 ++ (k, 1) :: l3).map Prod.fst :=
            List.mem_map_of_mem Prod.fst hkv
          rw [← hkeys] at hk1
          obtain ⟨kv2, hkv2, he⟩ := List.mem_map.mp hk1
          rw [← he]
          exact hlen kv2 hkv2
        have hwords2 : ∀ kv ∈ l1 ++ (k, 0) :: l2 ++ (k, 1) :: l3,
            ∀ w ∈ (kv.1).2, w < 2 ^ 64 := by
          intro kv hkv
          have hk1 : kv.1 ∈ (l1 ++ (k, 0) :: l2 ++ (k, 1) :: l3).map Prod.fst :=
            List.mem_map_of_mem Prod.fst hkv
          rw [← hkeys] at hk1
          obtain ⟨kv2, hkv2, he⟩ := List.mem_map.mp hk1
          rw [← he]
          exact hwords kv2 hkv2
        obtain ⟨_, heqs2⟩ := encode_ok_spec hwidth hlen2 hwords2 henc2
        have h0 := heqs2 (k, 0) (by simp)
        have h1 := heqs2 (k, 1) (by simp)
        rw [hm'] at h0 h1
        have hsame : vDot ⟨(row_k (encode_length map.length ε) width k).1,
              (row_k (encode_length map.length ε) width k).2, 0⟩
              (backsub F2 (List.replicate (encode_length map.length ε) 0))
            = vDot ⟨(row_k (encode_length map.length ε) width k).1,
              (row_k (encode_length map.length ε) width k).2, 1⟩
              (backsub F2 (List.replicate (encode_length map.length ε) 0)) := rfl
        rw [hsame, h1] at h0
        cases h0

theorem C2_witness :
    2 < encode_length
        [((0, [3, 0]), 5), ((0, [3, 0]), 7), ((1, [6, 0]), 9), ((1, [12, 0]), 11)].length 0 ∧
      encode 0 2 [((0, [3, 0]), 5), ((0, [3, 0]), 7), ((1, [6, 0]), 9), ((1, [12, 0]), 11)]
        = Except.error "Matrix is singular" := by
  have hm : 2 < encode_length
      [((0, [3, 0]), 5), ((0, [3, 0]), 7), ((1, [6, 0]), 9), ((1, [12, 0]), 11)].length 0 := by
    rw [show encode_length
      [((0, [3, 0]), 5), ((0, [3, 0]), 7), ((1, [6, 0]), 9), ((1, [12, 0]), 11)].length 0 = 4 from
      encode_length_4_0]
    decide
  refine ⟨hm, ?_⟩
  exact (C2_singular (by decide) (by decide) (by decide)).2.2 hm
    ⟨[], [], [((1, [6, 0]), 9), ((1, [12, 0]), 11)], (0, [3, 0]), 5, 7, rfl⟩


theorem C4_witness :
    (dot_u64_generic 5 (List.replicate 64 3)
        = (List.range (min 64 (List.replicate 64 3).length)).foldr
            (fun i acc => (List.replicate 64 3).getD i 0 * ((5 >>> i) &&& 1) ^^^ acc) 0) ∧
      dotUnrolled 5 (List.replicate 64 3) = dotShort 5 ((List.replicate 64 3).take 64) :=
  ⟨(C4_dot_u64_generic 5 (List.replicate 64 3)).1,
    (C4_dot_u64_generic 5 (List.replicate 64 3)).2 (by decide)⟩

end OkvsPSI
